import Mathlib

/-!
Verification development for the connected-components repository.

The C sources compute the number of connected components of an undirected
graph given as a column-compressed sparse boolean matrix.  Four files hold
nearly identical engines: `cc_sequential.c`, `cc_pthreads.c`, `cc_openmp.c`
and `cc_cilk.c`, each offering variant 0 (label propagation) and variant 1
(union-find).  This file is a shallow embedding of those engines: machine
integers become `Nat`, arrays become `List Nat` with bounds-checked access
(an out-of-bounds access, undefined behavior in C, becomes an explicit
error value), the possibly-null matrix pointer becomes
`Option CSCBinaryMatrix`, and the unbounded C loops become fuel-indexed
structural recursions whose fuel is proved sufficient.  The parallel
engines are embedded under their single-worker (`worker_count = 1`)
sequential semantics, the only semantics their claims mention.
-/

/-- Runtime outcomes that C leaves undefined or that the embedding must
flag: an out-of-bounds array access, a dereference of a null matrix
pointer, and exhaustion of the fuel used to model an unbounded C loop. -/
inductive CErr where
  | oob
  | nullDeref
  | fuelOut
deriving DecidableEq, Repr

/-- Bounds-checked array read, modeling `a[i]` on a C array of length
`l.length`. -/
def rd (l : List Nat) (i : Nat) : Except CErr Nat :=
  match l[i]? with
  | some v => .ok v
  | none => .error .oob

/-- Bounds-checked array write, modeling `a[i] = v`. -/
def wr (l : List Nat) (i v : Nat) : Except CErr (List Nat) :=
  if i < l.length then .ok (l.set i v) else .error .oob

/-- The column-compressed sparse boolean matrix of
`connected_components.h`: `nrows` nodes, `ncols` columns, `nnz` stored
entries, the offset array `col_ptr` (intended length `ncols + 1`) and the
row-index array `row_idx` (intended length `nnz`). -/
structure CSCBinaryMatrix where
  nrows : Nat
  ncols : Nat
  nnz : Nat
  col_ptr : List Nat
  row_idx : List Nat
deriving DecidableEq, Repr

/-- Dereference of the possibly-null matrix pointer. -/
def deref (m? : Option CSCBinaryMatrix) : Except CErr CSCBinaryMatrix :=
  match m? with
  | some m => .ok m
  | none => .error .nullDeref

/-! ### Pure parent-chasing (specification side)

`chaseRoot l fuel i` follows parent pointers from `i` and returns the
root together with the number of steps taken (the depth of `i`).  It is
the mathematical yardstick against which the mutating `find` functions of
the C code are measured. -/

/-- Follow `label` pointers from `i`; return `(root, depth)`, or `none`
if an index is out of range or `fuel` steps do not reach a root. -/
def chaseRoot (l : List Nat) : Nat → Nat → Option (Nat × Nat)
  | 0, _ => none
  | fuel + 1, i =>
    match l[i]? with
    | none => none
    | some p => if p = i then some (i, 0) else (chaseRoot l fuel p).map (fun q => (q.1, q.2 + 1))

/-- Root and depth of `i` computed with the always-sufficient fuel
`l.length + 1`. -/
def rootD (l : List Nat) (i : Nat) : Option (Nat × Nat) :=
  chaseRoot l (l.length + 1) i


/-! ### Invariants of the disjoint-set store -/

/-- Every stored parent pointer is at most its index.  The sequential
union-find maintains this: union-by-index always attaches the larger root
below the smaller one, and path halving only copies existing pointers
downward. -/
def parentLE (l : List Nat) : Prop :=
  ∀ (i p : Nat), l[i]? = some p → p ≤ i

/-- The array is a forest: every in-range node reaches a root. -/
def Forest (l : List Nat) : Prop :=
  ∀ i : Nat, i < l.length → ∃ r d : Nat, rootD l i = some (r, d)

/-- Executable forest check, used to state decidable hypotheses. -/
def isForest (l : List Nat) : Bool :=
  (List.range l.length).all (fun i => (rootD l i).isSome)

/-- Composable summary of what the mutating `find` functions do to the
store: same length, every defined root preserved with depth not
increased, and exactly the same set of self-parented entries. -/
def RootsPres (l l' : List Nat) : Prop :=
  l'.length = l.length ∧
  (∀ y r d : Nat, rootD l y = some (r, d) → ∃ d' ≤ d, rootD l' y = some (r, d')) ∧
  (∀ j : Nat, l'[j]? = some j ↔ l[j]? = some j)

/-! ### The mutating find of `cc_sequential.c`

`find_root_halving` walks `label[i]` to the root, halving the path as it
goes (`label[i] = label[label[i]]; i = label[i];`).  The C `while` loop
becomes a fuel-indexed recursion; the engine calls it with fuel
`label.length + 1`, proved sufficient on forests. -/

/-- Embedding of `find_root_halving` (cc_sequential.c, lines 38-46). -/
def find_root_halving : Nat → List Nat → Nat → Except CErr (List Nat × Nat)
  | 0, _, _ => .error .fuelOut
  | fuel + 1, label, i => do
    let li ← rd label i
    if li = i then .ok (label, i)
    else do
      let gp ← rd label li                -- label[label[i]]
      let label' ← wr label i gp          -- label[i] = label[label[i]]
      let i' ← rd label' i                -- i = label[i]
      find_root_halving fuel label' i'

/-! ### The find of the parallel engines

`find_compress` (identical in `cc_pthreads.c`, `cc_openmp.c` and
`cc_cilk.c`) first chases the root without writing, then runs a
"compression" loop.  That loop reads `label[x]` twice (`next = label[x];
if (label[x] == next) break;`), so in the sequential semantics embedded
here the comparison is always true and the loop exits on its first
iteration without ever writing: `find_compress` returns the root and
leaves the array untouched. -/

/-- Phase 1 of `find_compress`: `while (label[root] != root) root = label[root]`. -/
def fc_chase : Nat → List Nat → Nat → Except CErr Nat
  | 0, _, _ => .error .fuelOut
  | fuel + 1, label, root => do
    let p ← rd label root
    if p = root then .ok root
    else fc_chase fuel label p

/-- Phase 2 of `find_compress`: the compression loop with its
always-taken early exit. -/
def fc_compress : Nat → List Nat → Nat → Nat → Except CErr (List Nat)
  | 0, _, _, _ => .error .fuelOut
  | fuel + 1, label, x, root =>
    if x = root then .ok label
    else do
      let next ← rd label x
      let chk ← rd label x                 -- re-read of label[x]
      if chk = next then .ok label         -- "already compressed" break
      else do
        let label' ← wr label x root
        fc_compress fuel label' next root  -- unreachable: chk = next always

/-- Embedding of `find_compress` (cc_pthreads.c lines 43-62; the same
function appears verbatim in cc_openmp.c and cc_cilk.c). -/
def find_compress (fuel : Nat) (label : List Nat) (x : Nat) :
    Except CErr (List Nat × Nat) := do
  let root ← fc_chase fuel label x
  let label' ← fc_compress fuel label x root
  .ok (label', root)

/-! ### Roots and the induced partition -/

/-- The root of `i`, forgetting the depth. -/
def rootOf (l : List Nat) (i : Nat) : Option Nat :=
  (rootD l i).map (fun q => q.1)

/-- Two nodes lie in the same tree of the forest. -/
def sameRoot (l : List Nat) (x y : Nat) : Prop :=
  ∃ r : Nat, rootOf l x = some r ∧ rootOf l y = some r

/-- Embedding of `union_nodes_by_index` (cc_sequential.c lines 61-77):
union by index, attaching the larger root below the smaller.  The C `int`
result becomes a `Bool` (`1` ↦ `true`). -/
def union_nodes_by_index (label : List Nat) (i j : Nat) :
    Except CErr (List Nat × Bool) := do
  let (label1, root_i) ← find_root_halving (label.length + 1) label i
  let (label2, root_j) ← find_root_halving (label1.length + 1) label1 j
  if root_i = root_j then .ok (label2, false)
  else if root_i < root_j then do
    let label3 ← wr label2 root_j root_i
    .ok (label3, true)
  else do
    let label3 ← wr label2 root_i root_j
    .ok (label3, true)

/-! ### Reference connectivity

`connList es` is reachability through a list of undirected edges: the
reference notion of "maximal sets of pairwise reachable nodes" is phrased
through it. -/

/-- An undirected edge of the list, in either orientation. -/
def pairSym (es : List (Nat × Nat)) (a b : Nat) : Prop :=
  (a, b) ∈ es ∨ (b, a) ∈ es

/-- Pairwise reachability through the listed edges. -/
def connList (es : List (Nat × Nat)) : Nat → Nat → Prop :=
  Relation.ReflTransGen (pairSym es)

/-- Invariant carried through the edge-processing loop of the sequential
union-find: the store is a `parentLE` forest over `n` nodes whose
same-tree relation is exactly reachability through the processed edges. -/
def UFInv (n : Nat) (es : List (Nat × Nat)) (l : List Nat) : Prop :=
  l.length = n ∧ parentLE l ∧
  ∀ x y : Nat, x < n → y < n → (sameRoot l x y ↔ connList es x y)

/-- The edge-processing double loop of the sequential union-find in fold
form: each stored pair `(row, col)` triggers
`union_nodes_by_index(label, col, row)`. -/
def processEdges (l : List Nat) : List (Nat × Nat) → Except CErr (List Nat)
  | [] => .ok l
  | e :: es => do
    let (l', _) ← union_nodes_by_index l e.2 e.1
    processEdges l' es

/-- The root-counting loop of cc_sequential.c (lines 117-123): count the
entries with `label[i] == i`. -/
def countRoots (l : List Nat) (n : Nat) : Nat :=
  (List.range n).countP (fun i => l.getD i 0 == i)

/-! ### Well-formed adjacencies and their edge lists -/

/-- Well-formedness of the adjacency, as assumed by the claims:
`col_ptr` has length `ncols + 1`, is non-decreasing, starts at `0` and
ends at `nnz`; `row_idx` has length `nnz` and all entries below `nrows`;
and the column range fits inside the node range (`ncols ≤ nrows`, the
spec's "`ncols` normally equal to `nrows`"). -/
structure WF (m : CSCBinaryMatrix) : Prop where
  cp_len : m.col_ptr.length = m.ncols + 1
  ri_len : m.row_idx.length = m.nnz
  mono : ∀ i : Nat, i < m.ncols → m.col_ptr.getD i 0 ≤ m.col_ptr.getD (i + 1) 0
  first : m.col_ptr.getD 0 0 = 0
  last : m.col_ptr.getD m.ncols 0 = m.nnz
  rows_lt : ∀ v ∈ m.row_idx, v < m.nrows
  cols_le : m.ncols ≤ m.nrows

/-- Executable well-formedness check. -/
def wfChk (m : CSCBinaryMatrix) : Bool :=
  (m.col_ptr.length == m.ncols + 1) &&
  (m.row_idx.length == m.nnz) &&
  ((List.range m.ncols).all (fun i => decide (m.col_ptr.getD i 0 ≤ m.col_ptr.getD (i + 1) 0))) &&
  (m.col_ptr.getD 0 0 == 0) &&
  (m.col_ptr.getD m.ncols 0 == m.nnz) &&
  (m.row_idx.all (fun v => decide (v < m.nrows))) &&
  (decide (m.ncols ≤ m.nrows))

/-- The stored entries of column `c`, as `(row, column)` pairs — the
edges "`(row_indices[j], c)` for each column `c`" of the claims. -/
def colEdges (m : CSCBinaryMatrix) (c : Nat) : List (Nat × Nat) :=
  (List.range (m.col_ptr.getD (c + 1) 0 - m.col_ptr.getD c 0)).map
    (fun k => (m.row_idx.getD (m.col_ptr.getD c 0 + k) 0, c))

/-- All edges of the adjacency, column by column. -/
def edgeList (m : CSCBinaryMatrix) : List (Nat × Nat) :=
  (List.range m.ncols).flatMap (colEdges m)

/-! ### The sequential union-find engine (cc_sequential.c) -/

/-- Inner edge loop of `cc_union_find` (line 107-109):
`for (j = col_ptr[i]; j < col_ptr[i+1]; j++)
union_nodes_by_index(label, i, row_idx[j])`; `cnt` iterations remain,
`j` is the current position. -/
def ufInner (m : CSCBinaryMatrix) (i : Nat) : Nat → Nat → List Nat → Except CErr (List Nat)
  | _, 0, l => .ok l
  | j, cnt + 1, l => do
    let row ← rd m.row_idx j
    let (l', _) ← union_nodes_by_index l i row
    ufInner m i (j + 1) cnt l'

/-- Outer column loop of `cc_union_find` (lines 106-110): `cnt` columns
remain, `i` is the current column. -/
def ufCols (m : CSCBinaryMatrix) : Nat → Nat → List Nat → Except CErr (List Nat)
  | _, 0, l => .ok l
  | i, cnt + 1, l => do
    let lo ← rd m.col_ptr i
    let hi ← rd m.col_ptr (i + 1)
    let l' ← ufInner m i lo (hi - lo) l
    ufCols m (i + 1) cnt l'

/-- Final compression pass of `cc_union_find` (lines 112-115): call
`find_root_halving` on every node. -/
def ufFinal : Nat → Nat → List Nat → Except CErr (List Nat)
  | _, 0, l => .ok l
  | i, cnt + 1, l => do
    let (l', _) ← find_root_halving (l.length + 1) l i
    ufFinal (i + 1) cnt l'

/-- Embedding of the sequential `cc_union_find` (cc_sequential.c lines
91-127).  The result pairs the component count with the number of heap
allocations performed (one `malloc` for the label array); allocation is
assumed to succeed. -/
def cc_union_find (matrix : Option CSCBinaryMatrix) : Except CErr (Int × Nat) := do
  let m ← deref matrix                  -- `matrix->nrows`: dereference
  let label0 := List.range m.nrows      -- malloc + init loop `label[i] = i`
  let label1 ← ufCols m 0 m.ncols label0
  let label2 ← ufFinal 0 m.nrows label1
  let unique_count := countRoots label2 m.nrows
  .ok ((unique_count : Int), 1)

/-! ### Deciding reachability

Reachability through the edge list is decided by saturating the
neighbour map; with all endpoints inside `range n` the saturation
stabilizes after at most `n` rounds. -/

/-- Neighbours of `a` through the listed edges. -/
def nbrs (es : List (Nat × Nat)) (a : Nat) : List Nat :=
  es.filterMap (fun e => if e.1 = a then some e.2 else if e.2 = a then some e.1 else none)

/-- One saturation round: every member plus all its neighbours. -/
def stepSet (es : List (Nat × Nat)) (s : Finset Nat) : Finset Nat :=
  s ∪ s.biUnion (fun a => (nbrs es a).toFinset)

/-- `n` saturation rounds from the singleton `{a}`. -/
def reachSet (es : List (Nat × Nat)) (n a : Nat) : Finset Nat :=
  (stepSet es)^[n] {a}

/-- Executable reachability test. -/
def connB (es : List (Nat × Nat)) (n a b : Nat) : Bool :=
  decide (b ∈ reachSet es n a)

/-- The reference component count: the number of nodes below `nrows`
that are the least element of their pairwise-reachability class.  Every
maximal set of pairwise reachable nodes has exactly one least element,
so this counts the connected components of the graph whose edges are the
pairs `(row_indices[j], c)`. -/
def numComponents (m : CSCBinaryMatrix) : Nat :=
  (List.range m.nrows).countP
    (fun i => (List.range i).all (fun j => !(connB (edgeList m) m.nrows i j)))

/-- Comparison definition for the claim that the final compression pass
is needed before counting: the sequential union-find with the pass of
lines 112-115 removed, counting roots directly after edge processing. -/
def cc_union_find_noFinalPass (matrix : Option CSCBinaryMatrix) : Except CErr (Int × Nat) := do
  let m ← deref matrix
  let label0 := List.range m.nrows
  let label1 ← ufCols m 0 m.ncols label0
  let unique_count := countRoots label1 m.nrows
  .ok ((unique_count : Int), 1)

/-! ### The sequential label propagation (cc_sequential.c lines 149-217)

One pass walks all columns; for each stored edge it compares the cached
column label with the row label and writes the smaller over the larger.
The C `do … while (!finished)` loop is modeled with fuel, and the engine
passes `labelSum label + 1`, proved sufficient because each non-final
pass strictly decreases the label sum. -/

/-- Sum of all labels: the termination measure of the convergence loop. -/
def labelSum (l : List Nat) : Nat := l.sum

/-- Inner edge loop of one pass (lines 171-190) over column `i`,
threading the cached column label and the `finished` flag; `cnt`
iterations remain from position `j`.  The C body is two successive
`if`s; they are nested here, which enumerates the same executions. -/
def lpInner (m : CSCBinaryMatrix) (i : Nat) :
    Nat → Nat → Nat → List Nat → Bool → Except CErr (List Nat × Nat × Bool)
  | _, 0, col_label, l, finished => .ok (l, col_label, finished)
  | j, cnt + 1, col_label, l, finished => do
    let row ← rd m.row_idx j
    let row_label ← rd l row
    if col_label = row_label then
      lpInner m i (j + 1) cnt col_label l finished
    else
      let min_label := if col_label < row_label then col_label else row_label
      if col_label > min_label then do
        let l1 ← wr l i min_label            -- label[i] = col_label = min_label
        if row_label > min_label then do
          let l2 ← wr l1 row min_label       -- label[row] = min_label (dead: min is one side)
          lpInner m i (j + 1) cnt min_label l2 false
        else
          lpInner m i (j + 1) cnt min_label l1 false
      else
        if row_label > min_label then do
          let l2 ← wr l row min_label        -- label[row] = min_label
          lpInner m i (j + 1) cnt col_label l2 false
        else
          lpInner m i (j + 1) cnt col_label l finished

/-- One pass over the columns (lines 166-191): `cnt` columns remain from
column `i`; each column caches `label[i]` before its edge loop. -/
def lpPass (m : CSCBinaryMatrix) : Nat → Nat → List Nat → Bool → Except CErr (List Nat × Bool)
  | _, 0, l, finished => .ok (l, finished)
  | i, cnt + 1, l, finished => do
    let col_label ← rd l i
    let lo ← rd m.col_ptr i
    let hi ← rd m.col_ptr (i + 1)
    let (l1, _, finished1) ← lpInner m i lo (hi - lo) col_label l finished
    lpPass m (i + 1) cnt l1 finished1

/-- The convergence loop (lines 163-192). -/
def lpLoop (m : CSCBinaryMatrix) : Nat → List Nat → Except CErr (List Nat)
  | 0, _ => .error .fuelOut
  | fuel + 1, l => do
    let (l1, finished) ← lpPass m 0 m.ncols l true
    if finished then .ok l1
    else lpLoop m fuel l1

/-- Models `__builtin_popcountll`: number of set bits of a 64-bit word. -/
def popcountll (x : Nat) : Nat :=
  ((List.range 64).filter (fun b => x.testBit b)).length

/-- Bitmap construction loop (lines 202-206):
`bitmap[val >> 6] |= 1ULL << (val & 63)` for every label value. -/
def bmBuild : Nat → Nat → List Nat → List Nat → Except CErr (List Nat)
  | _, 0, _, bitmap => .ok bitmap
  | i, cnt + 1, label, bitmap => do
    let val ← rd label i
    let word ← rd bitmap (val / 64)
    let bitmap' ← wr bitmap (val / 64) (word ||| (1 <<< (val % 64)))
    bmBuild (i + 1) cnt label bitmap'

/-- Popcount reduction (lines 209-211). -/
def bmCount (bitmap : List Nat) : Nat :=
  (bitmap.map popcountll).sum

/-- Embedding of the sequential `cc_label_propagation` (cc_sequential.c
lines 149-217).  Two allocations: the label array and the bitmap. -/
def cc_label_propagation (matrix : Option CSCBinaryMatrix) : Except CErr (Int × Nat) := do
  let m ← deref matrix
  let label0 := List.range m.nrows               -- malloc + init loop
  let label ← lpLoop m (labelSum (List.range m.nrows) + 1) label0
  let bitmap0 := List.replicate ((m.nrows + 63) / 64) 0   -- calloc
  let bitmap ← bmBuild 0 m.nrows label bitmap0
  let count := bmCount bitmap
  .ok ((count : Int), 2)

/-- Embedding of the public sequential entry point `cc_sequential`
(cc_sequential.c lines 239-253): dispatch on the algorithm variant; any
other variant yields `-1` (with no allocation). -/
def cc_sequential (matrix : Option CSCBinaryMatrix) (n_threads : Nat)
    (algorithm_variant : Nat) : Except CErr (Int × Nat) :=
  match algorithm_variant with
  | 0 => cc_label_propagation matrix
  | 1 => cc_union_find matrix
  | _ => .ok (-1, 0)

/-- Pointwise domination of stores: labels only ever decrease. -/
def ptwLE (l1 l : List Nat) : Prop :=
  l1.length = l.length ∧ ∀ k : Nat, l1.getD k 0 ≤ l.getD k 0

/-- Invariant of the label store during propagation: correct length, and
every label is in range, at most its own node, and in its node's
reachability class. -/
def LPInv (m : CSCBinaryMatrix) (l : List Nat) : Prop :=
  l.length = m.nrows ∧
  ∀ k : Nat, k < m.nrows →
    l.getD k 0 < m.nrows ∧ l.getD k 0 ≤ k ∧ connList (edgeList m) k (l.getD k 0)

/-! ### The pthreads engines (cc_pthreads.c), single-worker semantics

The claims about the parallel entry points concern `worker_count = 1`,
the pre-spawn early returns, and the variant dispatch, so the embedding
gives the deterministic single-worker execution: the dynamic chunk
counter is claimed in order by the only worker.  Under this semantics
the CAS of `union_rem` always succeeds on its first attempt (the target
is a freshly computed root), and `find_compress` never writes. -/

/-- Embedding of `union_rem` (cc_pthreads.c lines 76-116; the same
function appears verbatim in cc_openmp.c and cc_cilk.c).  The retry
counter starts at `MAX_RETRIES = 10`; the zero case is the fallback
store.  The CAS `__atomic_compare_exchange_n(&label[b], &expected, a, …)`
reads `label[b]`, compares it with `expected = b`, stores `a` on
success, and on failure continues with the value read. -/
def union_rem_loop (fuel_find : Nat) : Nat → List Nat → Nat → Nat → Except CErr (List Nat)
  | 0, label, a, b => do
    let (label1, a') ← find_compress fuel_find label a
    let (label2, b') ← find_compress fuel_find label1 b
    if a' = b' then .ok label2
    else if a' > b' then do
      let label3 ← wr label2 a' b'       -- after swap: store label[bigger] = smaller
      .ok label3
    else do
      let label3 ← wr label2 b' a'
      .ok label3
  | retry + 1, label, a, b => do
    let (label1, a') ← find_compress fuel_find label a
    let (label2, b') ← find_compress fuel_find label1 b
    if a' = b' then .ok label2
    else
      let a2 := if a' > b' then b' else a'   -- canonical ordering: smaller as root
      let b2 := if a' > b' then a' else b'
      let cur ← rd label2 b2               -- CAS: read label[b2]
      if cur = b2 then do                  -- expected value found: store succeeds
        let label3 ← wr label2 b2 a2
        .ok label3
      else
        union_rem_loop fuel_find retry label2 a2 cur  -- b = expected; retry

def union_rem (label : List Nat) (a b : Nat) : Except CErr (List Nat) :=
  union_rem_loop (label.length + 1) 10 label a b

/-- Edge loop of `union_find_worker` for one column (cc_pthreads.c lines
163-171): `union_rem(label, row, c)` for each stored row; no bounds
check on `row`. -/
def ptUFColJ (m : CSCBinaryMatrix) (c : Nat) : Nat → Nat → List Nat → Except CErr (List Nat)
  | _, 0, l => .ok l
  | j, cnt + 1, l => do
    let row ← rd m.row_idx j
    let l' ← union_rem l row c
    ptUFColJ m c (j + 1) cnt l'

/-- A contiguous column range of the worker. -/
def ptUFCols (m : CSCBinaryMatrix) : Nat → Nat → List Nat → Except CErr (List Nat)
  | _, 0, l => .ok l
  | c, cnt + 1, l => do
    let start ← rd m.col_ptr c
    let stop ← rd m.col_ptr (c + 1)
    let l' ← ptUFColJ m c start (stop - start) l
    ptUFCols m (c + 1) cnt l'

/-- The dynamic chunk loop of `union_find_worker` (lines 152-172) with a
single worker: `CHUNK_SIZE = 4096` columns are claimed in order until
the counter passes `num_cols`. -/
def ptUFChunks (m : CSCBinaryMatrix) : Nat → Nat → List Nat → Except CErr (List Nat)
  | 0, _, _ => .error .fuelOut
  | fuel + 1, col, l =>
    if m.ncols ≤ col then .ok l
    else do
      let l' ← ptUFCols m col (min (col + 4096) m.ncols - col) l
      ptUFChunks m fuel (col + 4096) l'

/-- Final compression pass of the pthreads union-find (lines 268-269),
run on the main thread; `find_compress` leaves the array unchanged. -/
def ptFinal : Nat → Nat → List Nat → Except CErr (List Nat)
  | _, 0, l => .ok l
  | i, cnt + 1, l => do
    let (l', _) ← find_compress (l.length + 1) l i
    ptFinal (i + 1) cnt l'

/-- Embedding of the pthreads `cc_union_find` (cc_pthreads.c lines
234-289) with one worker.  A null or empty matrix returns `0` before any
allocation (`if (!matrix || matrix->nrows == 0) return 0;`); the count
phase with one worker covers the whole range `[0, nrows)`. -/
def cc_union_find_pthreads (matrix : Option CSCBinaryMatrix) : Except CErr (Int × Nat) :=
  match matrix with
  | none => .ok (0, 0)
  | some m =>
    if m.nrows = 0 then .ok (0, 0)
    else do
      let label0 := List.range m.nrows      -- malloc + init loop
      let label1 ← ptUFChunks m (m.ncols + 1) 0 label0
      let label2 ← ptFinal 0 m.nrows label1
      let total := countRoots label2 m.nrows
      .ok ((total : Int), 1)

/-- Edge loop of `label_propagation_worker` for one column (cc_pthreads.c
lines 341-361): labels are re-read for every edge (no cache), and each
of the two conditional stores clears nothing but the local flag. -/
def ptLPColJ (m : CSCBinaryMatrix) (c : Nat) :
    Nat → Nat → List Nat → Bool → Except CErr (List Nat × Bool)
  | _, 0, l, changed => .ok (l, changed)
  | j, cnt + 1, l, changed => do
    let row ← rd m.row_idx j
    let label_col ← rd l c
    let label_row ← rd l row
    if label_col = label_row then
      ptLPColJ m c (j + 1) cnt l changed
    else
      let min_label := if label_col < label_row then label_col else label_row
      if label_col > min_label then do
        let l1 ← wr l c min_label
        if label_row > min_label then do
          let l2 ← wr l1 row min_label       -- dead: min is one of the two
          ptLPColJ m c (j + 1) cnt l2 true
        else
          ptLPColJ m c (j + 1) cnt l1 true
      else
        if label_row > min_label then do
          let l2 ← wr l row min_label
          ptLPColJ m c (j + 1) cnt l2 true
        else
          ptLPColJ m c (j + 1) cnt l changed

/-- A contiguous column range of the propagation worker, threading its
local `changed` flag. -/
def ptLPCols (m : CSCBinaryMatrix) :
    Nat → Nat → List Nat → Bool → Except CErr (List Nat × Bool)
  | _, 0, l, ch => .ok (l, ch)
  | c, cnt + 1, l, ch => do
    let start ← rd m.col_ptr c
    let stop ← rd m.col_ptr (c + 1)
    let (l1, ch1) ← ptLPColJ m c start (stop - start) l ch
    ptLPCols m (c + 1) cnt l1 ch1

/-- One chunk of columns with a fresh local flag. -/
def ptLPColJ_range (m : CSCBinaryMatrix) (col : Nat) (l : List Nat) :
    Except CErr (List Nat × Bool) :=
  ptLPCols m col (min (col + 4096) m.ncols - col) l false

/-- The chunk loop of `label_propagation_worker` (lines 328-366) with a
single worker; each chunk starts with a fresh local `changed` flag and
merges it into the global flag afterwards. -/
def ptLPChunks (m : CSCBinaryMatrix) :
    Nat → Nat → List Nat → Bool → Except CErr (List Nat × Bool)
  | 0, _, _, _ => .error .fuelOut
  | fuel + 1, col, l, global_change =>
    if m.ncols ≤ col then .ok (l, global_change)
    else do
      let (l1, changed) ← ptLPColJ_range m col l
      ptLPChunks m fuel (col + 4096) l1 (global_change || changed)

/-- The convergence loop of the pthreads label propagation (lines
404-425) with a single worker. -/
def ptLPLoop (m : CSCBinaryMatrix) : Nat → List Nat → Except CErr (List Nat)
  | 0, _ => .error .fuelOut
  | fuel + 1, l => do
    let (l1, global_change) ← ptLPChunks m (m.ncols + 1) 0 l false
    if global_change then ptLPLoop m fuel l1
    else .ok l1

/-- Embedding of the pthreads `cc_label_propagation` (cc_pthreads.c
lines 392-449) with one worker: no null or empty-input check, two
allocations (label array, bitmap). -/
def cc_label_propagation_pthreads (matrix : Option CSCBinaryMatrix) :
    Except CErr (Int × Nat) := do
  let m ← deref matrix                       -- reads matrix->nrows
  let label0 := List.range m.nrows           -- malloc + init loop
  let label ← ptLPLoop m (labelSum (List.range m.nrows) + 1) label0
  let bitmap0 := List.replicate ((m.nrows + 63) / 64) 0   -- calloc
  let bitmap ← bmBuild 0 m.nrows label bitmap0
  .ok ((bmCount bitmap : Int), 2)

/-- Embedding of the public pthreads entry point `cc_pthreads`
(cc_pthreads.c lines 471-485), single-worker semantics. -/
def cc_pthreads (matrix : Option CSCBinaryMatrix) (n_threads : Nat)
    (algorithm_variant : Nat) : Except CErr (Int × Nat) :=
  match algorithm_variant with
  | 0 => cc_label_propagation_pthreads matrix
  | 1 => cc_union_find_pthreads matrix
  | _ => .ok (-1, 0)

/-! ### The OpenMP engines (cc_openmp.c), single-thread semantics

With one thread, `schedule(dynamic, …)` hands the columns to the only
thread in order, so the loops are plain sequential column loops.
`union_rem` and `find_compress` are textually identical to the pthreads
copies and are shared. -/

/-- Edge loop of the OpenMP union-find for one column (cc_openmp.c lines
152-161): unlike the sequential and pthreads engines, each stored row is
guarded by `if (row < n)` before the union. -/
def omUFColJ (m : CSCBinaryMatrix) (n c : Nat) : Nat → Nat → List Nat → Except CErr (List Nat)
  | _, 0, l => .ok l
  | j, cnt + 1, l => do
    let row ← rd m.row_idx j
    if row < n then do
      let l' ← union_rem l row c
      omUFColJ m n c (j + 1) cnt l'
    else
      omUFColJ m n c (j + 1) cnt l

/-- The column loop of the OpenMP union-find with one thread. -/
def omUFCols (m : CSCBinaryMatrix) (n : Nat) : Nat → Nat → List Nat → Except CErr (List Nat)
  | _, 0, l => .ok l
  | c, cnt + 1, l => do
    let start ← rd m.col_ptr c
    let stop ← rd m.col_ptr (c + 1)
    let l' ← omUFColJ m n c start (stop - start) l
    omUFCols m n (c + 1) cnt l'

/-- Embedding of the OpenMP `cc_union_find` (cc_openmp.c lines 132-178)
with one thread.  Null or empty input returns `0` before any allocation;
the final pass and the root count reuse the shared `find_compress` pass
and `countRoots`, which with one thread cover the full index range. -/
def cc_union_find_openmp (matrix : Option CSCBinaryMatrix) : Except CErr (Int × Nat) :=
  match matrix with
  | none => .ok (0, 0)
  | some m =>
    if m.nrows = 0 then .ok (0, 0)
    else do
      let label0 := List.range m.nrows      -- malloc + parallel init
      let label1 ← omUFCols m m.nrows 0 m.ncols label0
      let label2 ← ptFinal 0 m.nrows label1
      .ok ((countRoots label2 m.nrows : Int), 1)

/-- Edge loop of the OpenMP label propagation for one column (cc_openmp.c
lines 225-245): labels are re-read for each edge, and exactly one of the
two atomic writes runs (`label[col]` if it differs from the minimum,
otherwise `label[row]`). -/
def omLPColJ (m : CSCBinaryMatrix) (c : Nat) :
    Nat → Nat → List Nat → Bool → Except CErr (List Nat × Bool)
  | _, 0, l, changed => .ok (l, changed)
  | j, cnt + 1, l, changed => do
    let row ← rd m.row_idx j
    let label_col ← rd l c
    let label_row ← rd l row
    if label_col = label_row then
      omLPColJ m c (j + 1) cnt l changed
    else
      let min_label := if label_col < label_row then label_col else label_row
      if label_col ≠ min_label then do
        let l1 ← wr l c min_label
        omLPColJ m c (j + 1) cnt l1 true
      else do
        let l1 ← wr l row min_label
        omLPColJ m c (j + 1) cnt l1 true

/-- The column loop of the OpenMP label propagation with one thread,
threading the thread-local `local_changed` flag. -/
def omLPCols (m : CSCBinaryMatrix) :
    Nat → Nat → List Nat → Bool → Except CErr (List Nat × Bool)
  | _, 0, l, ch => .ok (l, ch)
  | c, cnt + 1, l, ch => do
    let start ← rd m.col_ptr c
    let stop ← rd m.col_ptr (c + 1)
    let (l1, ch1) ← omLPColJ m c start (stop - start) l ch
    omLPCols m (c + 1) cnt l1 ch1

/-- The convergence loop of the OpenMP label propagation (cc_openmp.c
lines 215-254) with one thread: `finished` starts at 1 each round and is
cleared when the thread saw a change (`changed = !finished`). -/
def omLPLoop (m : CSCBinaryMatrix) : Nat → List Nat → Except CErr (List Nat)
  | 0, _ => .error .fuelOut
  | fuel + 1, l => do
    let (l1, local_changed) ← omLPCols m 0 m.ncols l false
    if local_changed then omLPLoop m fuel l1
    else .ok l1

/-- Embedding of the OpenMP `cc_label_propagation` (cc_openmp.c lines
201-281) with one thread: no null or empty-input check (it dereferences
`matrix->nrows` at once), two allocations. -/
def cc_label_propagation_openmp (matrix : Option CSCBinaryMatrix) :
    Except CErr (Int × Nat) := do
  let m ← deref matrix
  let label0 := List.range m.nrows
  let label ← omLPLoop m (labelSum (List.range m.nrows) + 1) label0
  let bitmap0 := List.replicate ((m.nrows + 63) / 64) 0
  let bitmap ← bmBuild 0 m.nrows label bitmap0
  .ok ((bmCount bitmap : Int), 2)

/-- Embedding of the public OpenMP entry point `cc_openmp` (cc_openmp.c
lines 303-317), single-thread semantics. -/
def cc_openmp (matrix : Option CSCBinaryMatrix) (n_threads : Nat)
    (algorithm_variant : Nat) : Except CErr (Int × Nat) :=
  match algorithm_variant with
  | 0 => cc_label_propagation_openmp matrix
  | 1 => cc_union_find_openmp matrix
  | _ => .ok (-1, 0)

/-! ### The Cilk engines (cc_cilk.c), single-worker semantics

`find_compress` and `union_rem` are again textually identical and
shared.  With one worker every `cilk_for` runs its iterations in
order. -/

/-- Edge loop of the Cilk union-find for one column (cc_cilk.c lines
152-156), with the same `if (row < n)` guard as the OpenMP engine. -/
def ckUFColJ (m : CSCBinaryMatrix) (n c : Nat) : Nat → Nat → List Nat → Except CErr (List Nat)
  | _, 0, l => .ok l
  | j, cnt + 1, l => do
    let row ← rd m.row_idx j
    if row < n then do
      let l' ← union_rem l row c
      ckUFColJ m n c (j + 1) cnt l'
    else
      ckUFColJ m n c (j + 1) cnt l

/-- The `cilk_for` column loop of the Cilk union-find with one worker. -/
def ckUFCols (m : CSCBinaryMatrix) (n : Nat) : Nat → Nat → List Nat → Except CErr (List Nat)
  | _, 0, l => .ok l
  | c, cnt + 1, l => do
    let start ← rd m.col_ptr c
    let stop ← rd m.col_ptr (c + 1)
    let l' ← ckUFColJ m n c start (stop - start) l
    ckUFCols m n (c + 1) cnt l'

/-- Embedding of the Cilk `cc_union_find` (cc_cilk.c lines 132-173) with
one worker.  Null or empty input returns `0` before any allocation. -/
def cc_union_find_cilk (matrix : Option CSCBinaryMatrix) : Except CErr (Int × Nat) :=
  match matrix with
  | none => .ok (0, 0)
  | some m =>
    if m.nrows = 0 then .ok (0, 0)
    else do
      let label0 := List.range m.nrows
      let label1 ← ckUFCols m m.nrows 0 m.ncols label0
      let label2 ← ptFinal 0 m.nrows label1
      .ok ((countRoots label2 m.nrows : Int), 1)

/-- Edge loop of the Cilk label propagation for one column (cc_cilk.c
lines 218-234): same store discipline as the OpenMP engine (store
`label[col]` if it differs from the minimum, else `label[row]`). -/
def ckLPColJ (m : CSCBinaryMatrix) (c : Nat) :
    Nat → Nat → List Nat → Bool → Except CErr (List Nat × Bool)
  | _, 0, l, changed => .ok (l, changed)
  | j, cnt + 1, l, changed => do
    let row ← rd m.row_idx j
    let label_col ← rd l c
    let label_row ← rd l row
    if label_col = label_row then
      ckLPColJ m c (j + 1) cnt l changed
    else
      let min_label := if label_col < label_row then label_col else label_row
      if label_col ≠ min_label then do
        let l1 ← wr l c min_label
        ckLPColJ m c (j + 1) cnt l1 true
      else do
        let l1 ← wr l row min_label
        ckLPColJ m c (j + 1) cnt l1 true

/-- The `cilk_for` column loop of the Cilk label propagation with one
worker; each column has its own `local_changed`, merged into the
`finished` flag (here threaded directly as `changed`). -/
def ckLPCols (m : CSCBinaryMatrix) :
    Nat → Nat → List Nat → Bool → Except CErr (List Nat × Bool)
  | _, 0, l, ch => .ok (l, ch)
  | c, cnt + 1, l, ch => do
    let start ← rd m.col_ptr c
    let stop ← rd m.col_ptr (c + 1)
    let (l1, ch1) ← ckLPColJ m c start (stop - start) l ch
    ckLPCols m (c + 1) cnt l1 ch1

/-- The convergence loop of the Cilk label propagation (cc_cilk.c lines
211-241) with one worker. -/
def ckLPLoop (m : CSCBinaryMatrix) : Nat → List Nat → Except CErr (List Nat)
  | 0, _ => .error .fuelOut
  | fuel + 1, l => do
    let (l1, changed) ← ckLPCols m 0 m.ncols l false
    if changed then ckLPLoop m fuel l1
    else .ok l1

/-- Embedding of the Cilk `cc_label_propagation` (cc_cilk.c lines
195-268): unlike the other three label-propagation engines it checks
for null or empty input first and returns `0` before any allocation. -/
def cc_label_propagation_cilk (matrix : Option CSCBinaryMatrix) :
    Except CErr (Int × Nat) :=
  match matrix with
  | none => .ok (0, 0)
  | some m =>
    if m.nrows = 0 then .ok (0, 0)
    else do
      let label0 := List.range m.nrows
      let label ← ckLPLoop m (labelSum (List.range m.nrows) + 1) label0
      let bitmap0 := List.replicate ((m.nrows + 63) / 64) 0
      let bitmap ← bmBuild 0 m.nrows label bitmap0
      .ok ((bmCount bitmap : Int), 2)

/-- Embedding of the public Cilk entry point `cc_cilk` (cc_cilk.c lines
290-304), single-worker semantics. -/
def cc_cilk (matrix : Option CSCBinaryMatrix) (n_threads : Nat)
    (algorithm_variant : Nat) : Except CErr (Int × Nat) :=
  match algorithm_variant with
  | 0 => cc_label_propagation_cilk matrix
  | 1 => cc_union_find_cilk matrix
  | _ => .ok (-1, 0)

/-- A 6-node adjacency made of two triangles — edges (0,1), (0,2),
(1,2), (3,4), (3,5), (4,5) — hence two components. -/
def exampleAdjacency : CSCBinaryMatrix :=
  ⟨6, 6, 6, [0, 0, 1, 3, 3, 4, 6], [0, 0, 1, 3, 3, 4]⟩

/-- A 1-node adjacency whose single stored row index 7 is out of the
declared range `[0, nrows)`. -/
def badRowAdjacency : CSCBinaryMatrix :=
  ⟨1, 1, 1, [0, 1], [7]⟩

/-- The empty adjacency: no nodes, no columns, no edges. -/
def emptyAdjacency : CSCBinaryMatrix :=
  ⟨0, 0, 0, [0], []⟩

/-- A 6-node path graph: column `c` stores the single row `c - 1`. -/
def chainAdjacency : CSCBinaryMatrix :=
  ⟨6, 6, 5, [0, 0, 1, 2, 3, 4, 5], [0, 1, 2, 3, 4]⟩

theorem rd_ok_iff {l : List Nat} {i v : Nat} : rd l i = .ok v ↔ l[i]? = some v := by
  unfold rd
  cases h : l[i]? with
  | none => simp
  | some w => simp

theorem rd_lt {l : List Nat} {i v : Nat} (h : rd l i = .ok v) : i < l.length := by
  rw [rd_ok_iff] at h
  exact (List.getElem?_eq_some_iff.mp h).1

theorem rd_of_lt {l : List Nat} {i : Nat} (h : i < l.length) : rd l i = .ok l[i] := by
  rw [rd_ok_iff]
  exact List.getElem?_eq_some_iff.mpr ⟨h, rfl⟩

theorem wr_ok_iff {l l' : List Nat} {i v : Nat} :
    wr l i v = .ok l' ↔ i < l.length ∧ l' = l.set i v := by
  unfold wr
  split
  · rename_i h
    simp [h, eq_comm]
  · rename_i h
    simp [h]

theorem chaseRoot_mono {l : List Nat} {f f' i : Nat} {x : Nat × Nat}
    (h : chaseRoot l f i = some x) (hle : f ≤ f') : chaseRoot l f' i = some x := by
  induction f generalizing f' i x with
  | zero => simp [chaseRoot] at h
  | succ f ih =>
    obtain ⟨f', rfl⟩ : ∃ g, f' = g + 1 := ⟨f' - 1, by omega⟩
    rw [chaseRoot] at h ⊢
    cases hp : l[i]? with
    | none => rw [hp] at h; exact absurd h (by simp)
    | some p =>
      rw [hp] at h
      by_cases hpi : p = i
      · simpa [hpi] using h
      · simp only [hpi, if_false, Option.map_eq_some'] at h ⊢
        obtain ⟨q, hq, rfl⟩ := h
        exact ⟨q, ih hq (by omega), rfl⟩

theorem chaseRoot_idx_lt {l : List Nat} {f i : Nat} {x : Nat × Nat}
    (h : chaseRoot l f i = some x) : i < l.length := by
  cases f with
  | zero => simp [chaseRoot] at h
  | succ f =>
    rw [chaseRoot] at h
    cases hp : l[i]? with
    | none => rw [hp] at h; exact absurd h (by simp)
    | some p => exact (List.getElem?_eq_some_iff.mp hp).1

theorem chaseRoot_isRoot {l : List Nat} {f i : Nat} {x : Nat × Nat}
    (h : chaseRoot l f i = some x) : l[x.1]? = some x.1 := by
  induction f generalizing i x with
  | zero => simp [chaseRoot] at h
  | succ f ih =>
    rw [chaseRoot] at h
    cases hp : l[i]? with
    | none => rw [hp] at h; exact absurd h (by simp)
    | some p =>
      rw [hp] at h
      by_cases hpi : p = i
      · simp only [hpi, if_true] at h
        cases h
        simpa [hpi] using hp
      · simp only [hpi, if_false, Option.map_eq_some'] at h
        obtain ⟨q, hq, rfl⟩ := h
        have hr : l[q.1]? = some q.1 := ih hq
        simpa using hr

theorem chaseRoot_depth_lt_fuel {l : List Nat} {f i : Nat} {x : Nat × Nat}
    (h : chaseRoot l f i = some x) : x.2 < f := by
  induction f generalizing i x with
  | zero => simp [chaseRoot] at h
  | succ f ih =>
    rw [chaseRoot] at h
    cases hp : l[i]? with
    | none => rw [hp] at h; exact absurd h (by simp)
    | some p =>
      rw [hp] at h
      by_cases hpi : p = i
      · simp only [hpi, if_true] at h
        cases h
        omega
      · simp only [hpi, if_false, Option.map_eq_some'] at h
        obtain ⟨q, hq, rfl⟩ := h
        have hlt : q.2 < f := ih hq
        omega

/-- A successful chase needs exactly `depth + 1` fuel. -/
theorem chaseRoot_min_fuel {l : List Nat} {f i : Nat} {x : Nat × Nat}
    (h : chaseRoot l f i = some x) : chaseRoot l (x.2 + 1) i = some x := by
  induction f generalizing i x with
  | zero => simp [chaseRoot] at h
  | succ f ih =>
    rw [chaseRoot] at h
    cases hp : l[i]? with
    | none => rw [hp] at h; exact absurd h (by simp)
    | some p =>
      rw [hp] at h
      by_cases hpi : p = i
      · simp only [hpi, if_true] at h
        cases h
        simp [chaseRoot, hp, hpi]
      · simp only [hpi, if_false, Option.map_eq_some'] at h
        obtain ⟨q, hq, rfl⟩ := h
        have hq' := ih hq
        rw [chaseRoot, hp]
        simp only [hpi, if_false, hq', Option.map_some']

theorem chaseRoot_fun {l : List Nat} {f f' i : Nat} {x y : Nat × Nat}
    (hx : chaseRoot l f i = some x) (hy : chaseRoot l f' i = some y) : x = y := by
  rcases Nat.le_total f f' with h | h
  · rw [chaseRoot_mono hx h] at hy
    exact Option.some.inj hy
  · rw [chaseRoot_mono hy h] at hx
    exact (Option.some.inj hx).symm

theorem rootD_of_chaseRoot {l : List Nat} {f i : Nat} {x : Nat × Nat}
    (h : chaseRoot l f i = some x) (hd : x.2 < l.length + 1) : rootD l i = some x :=
  chaseRoot_mono (chaseRoot_min_fuel h) (by omega)

theorem chaseRoot_step {l : List Nat} {i p f : Nat} (hp : l[i]? = some p) (hpi : p ≠ i) :
    chaseRoot l (f + 1) i = (chaseRoot l f p).map (fun q => (q.1, q.2 + 1)) := by
  rw [chaseRoot, hp]
  simp [hpi]

theorem chaseRoot_root {l : List Nat} {i f : Nat} (hp : l[i]? = some i) :
    chaseRoot l (f + 1) i = some (i, 0) := by
  rw [chaseRoot, hp]
  simp

theorem rootD_root {l : List Nat} {i : Nat} (hp : l[i]? = some i) : rootD l i = some (i, 0) :=
  chaseRoot_root hp

theorem isForest_iff {l : List Nat} : isForest l = true ↔ Forest l := by
  unfold isForest Forest
  rw [List.all_eq_true]
  constructor
  · intro h i hi
    have hs := h i (List.mem_range.mpr hi)
    rcases hx : rootD l i with _ | x
    · rw [hx] at hs; simp at hs
    · exact ⟨x.1, x.2, by simp [hx]⟩
  · intro h i hi
    obtain ⟨r, d, hrd⟩ := h i (List.mem_range.mp hi)
    simp [hrd]

theorem parentLE_set {l : List Nat} {i v : Nat} (h : parentLE l) (hv : v ≤ i) :
    parentLE (l.set i v) := by
  intro j p hp
  rcases Nat.lt_or_ge i l.length with hlen | hlen
  · by_cases hij : i = j
    · subst hij
      rw [List.getElem?_set_self hlen] at hp
      cases hp
      exact hv
    · rw [List.getElem?_set_ne hij] at hp
      exact h j p hp
  · rw [List.set_eq_of_length_le hlen] at hp
    exact h j p hp

/-- Under `parentLE`, every in-range node reaches a root, at depth at most
its own index, and the root is at most the node. -/
theorem parentLE_rootD {l : List Nat} (hple : parentLE l) :
    ∀ i : Nat, i < l.length → ∃ r d : Nat, rootD l i = some (r, d) ∧ r ≤ i ∧ d ≤ i := by
  intro i
  induction i using Nat.strong_induction_on with
  | _ i ih =>
    intro hi
    have hp : l[i]? = some l[i] := List.getElem?_eq_some_iff.mpr ⟨hi, rfl⟩
    have hple' : l[i] ≤ i := hple i l[i] hp
    by_cases hpi : l[i] = i
    · exact ⟨i, 0, rootD_root (by rwa [hpi] at hp), le_refl i, Nat.zero_le i⟩
    · have hplt : l[i] < i := lt_of_le_of_ne hple' hpi
      obtain ⟨r, d, hrd, hr, hd⟩ := ih l[i] hplt (lt_trans hplt hi)
      refine ⟨r, d + 1, ?_, by omega, by omega⟩
      have hstep : chaseRoot l (l.length + 1) i =
          (chaseRoot l l.length (l[i])).map (fun q => (q.1, q.2 + 1)) := chaseRoot_step hp hpi
      have hfit : chaseRoot l l.length (l[i]) = some (r, d) :=
        chaseRoot_mono (chaseRoot_min_fuel hrd) (by omega)
      rw [rootD, hstep, hfit, Option.map_some']

theorem parentLE_forest {l : List Nat} (hple : parentLE l) : Forest l := by
  intro i hi
  obtain ⟨r, d, hrd, _, _⟩ := parentLE_rootD hple i hi
  exact ⟨r, d, hrd⟩

/-! ### Effect of single writes on the root structure

Two kinds of writes occur in the engines: a *redirect* `l[i] := g` where
`g` is strictly shallower than `i` in the same tree (path halving), and a
*merge* `l[r2] := r1` linking the root `r2` below the root `r1`
(union).  The next lemmas describe how each transforms `rootD`. -/

/-- Chases entirely shallower than `depth i` do not see a write at `i`. -/
theorem chaseRoot_set_shallow {l : List Nat} {i g ri di : Nat}
    (hi : rootD l i = some (ri, di)) :
    ∀ d : Nat, d < di → ∀ y r : Nat, rootD l y = some (r, d) →
      chaseRoot (l.set i g) (d + 1) y = some (r, d) := by
  intro d
  induction d using Nat.strong_induction_on with
  | _ d ih =>
    intro hdlt y r hy
    have hyi : y ≠ i := by
      intro hcon
      subst hcon
      have heq := chaseRoot_fun hy hi
      injection heq with h1 h2
      omega
    have hylt : y < l.length := chaseRoot_idx_lt hy
    have hp : l[y]? = some l[y] := List.getElem?_eq_some_iff.mpr ⟨hylt, rfl⟩
    have hp' : (l.set i g)[y]? = some l[y] := by
      rw [List.getElem?_set_ne (by omega)]
      exact hp
    by_cases hpy : l[y] = y
    · have hroot : rootD l y = some (y, 0) := rootD_root (by rwa [hpy] at hp)
      have heq := chaseRoot_fun hy hroot
      injection heq with h1 h2
      subst h1 h2
      exact chaseRoot_root (by rwa [hpy] at hp')
    · rw [rootD, chaseRoot_step hp hpy] at hy
      cases hq : chaseRoot l l.length l[y] with
      | none => rw [hq] at hy; simp at hy
      | some q =>
        rw [hq, Option.map_some'] at hy
        injection hy with hy'
        injection hy' with hq1 hq2
        subst hq1
        subst hq2
        have hqD : rootD l l[y] = some (q.1, q.2) := chaseRoot_mono hq (by omega)
        have ihp := ih q.2 (by omega) (by omega) l[y] q.1 hqD
        rw [chaseRoot_step hp' hpy, ihp, Option.map_some']

/-- Redirecting `i` to a strictly shallower member `g` of its own tree
preserves every node's root and never increases any depth. -/
theorem rootD_set_ancestor {l : List Nat} {i g ri di dg : Nat}
    (hi : rootD l i = some (ri, di)) (hg : rootD l g = some (ri, dg))
    (hlt : dg < di) :
    ∀ y r d : Nat, rootD l y = some (r, d) →
      ∃ d' ≤ d, rootD (l.set i g) y = some (r, d') := by
  intro y r d
  induction d using Nat.strong_induction_on generalizing y r with
  | _ d ih =>
    intro hy
    have hilen : i < l.length := chaseRoot_idx_lt hi
    have hylen : y < l.length := chaseRoot_idx_lt hy
    have hlen : (l.set i g).length = l.length := List.length_set l i g
    by_cases hyi : y = i
    · subst hyi
      have heq := chaseRoot_fun hy hi
      injection heq with hr hd
      subst hr hd
      have hgi : g ≠ y := by
        intro hcon
        subst hcon
        have heq2 := chaseRoot_fun hg hi
        injection heq2 with h1 h2
        omega
      have hp' : (l.set y g)[y]? = some g := List.getElem?_set_self hilen
      have hgshallow : chaseRoot (l.set y g) (dg + 1) g = some (r, dg) :=
        chaseRoot_set_shallow hi dg hlt g r hg
      have hdgle : dg + 1 ≤ l.length := by
        have h1 : d < l.length + 1 := chaseRoot_depth_lt_fuel hi
        omega
      have hgfit : chaseRoot (l.set y g) l.length g = some (r, dg) :=
        chaseRoot_mono hgshallow hdgle
      refine ⟨dg + 1, by omega, ?_⟩
      rw [rootD, hlen, chaseRoot_step hp' hgi, hgfit, Option.map_some']
    · have hp : l[y]? = some l[y] := List.getElem?_eq_some_iff.mpr ⟨hylen, rfl⟩
      have hp' : (l.set i g)[y]? = some l[y] := by
        rw [List.getElem?_set_ne (by omega)]
        exact hp
      by_cases hpy : l[y] = y
      · have hroot : rootD l y = some (y, 0) := rootD_root (by rwa [hpy] at hp)
        have heq := chaseRoot_fun hy hroot
        injection heq with hr hd
        subst hr hd
        exact ⟨0, le_refl 0, by rw [rootD, hlen]; exact chaseRoot_root (by rwa [hpy] at hp')⟩
      · rw [rootD, chaseRoot_step hp hpy] at hy
        cases hq : chaseRoot l l.length l[y] with
        | none => rw [hq] at hy; simp at hy
        | some q =>
          rw [hq, Option.map_some'] at hy
          injection hy with hy'
          injection hy' with hq1 hq2
          subst hq1
          subst hq2
          have hqD : rootD l l[y] = some (q.1, q.2) := chaseRoot_mono hq (by omega)
          obtain ⟨d'', hd''le, hd''⟩ := ih q.2 (by omega) l[y] q.1 hqD
          refine ⟨d'' + 1, by omega, ?_⟩
          have hq2lt : q.2 < l.length := by
            have := chaseRoot_depth_lt_fuel hqD
            have hdi : di < l.length + 1 := chaseRoot_depth_lt_fuel hi
            have := chaseRoot_depth_lt_fuel hq
            omega
          have hfit : chaseRoot (l.set i g) l.length l[y] = some (q.1, d'') :=
            chaseRoot_mono (chaseRoot_min_fuel hd'') (by omega)
          rw [rootD, hlen, chaseRoot_step hp' hpy, hfit, Option.map_some']

/-- Linking the root `r2` below the distinct smaller root `r1` rewrites
every root equal to `r2` into `r1` and leaves all other roots alone. -/
theorem rootD_merge {l : List Nat} {r1 r2 : Nat} (hple : parentLE l)
    (h1 : l[r1]? = some r1) (h2 : l[r2]? = some r2) (h12 : r1 < r2) :
    ∀ y r d : Nat, rootD l y = some (r, d) →
      ∃ d' : Nat, rootD (l.set r2 r1) y = some (if r = r2 then r1 else r, d') := by
  intro y r d
  induction d using Nat.strong_induction_on generalizing y r with
  | _ d ih =>
    intro hy
    have hlen2 : r2 < l.length := (List.getElem?_eq_some_iff.mp h2).1
    have hlen : (l.set r2 r1).length = l.length := List.length_set l r2 r1
    have hple' : parentLE (l.set r2 r1) := parentLE_set hple (le_of_lt h12)
    have hylen : y < l.length := chaseRoot_idx_lt hy
    by_cases hy2 : y = r2
    · subst hy2
      have hroot : rootD l y = some (y, 0) := rootD_root h2
      have heq := chaseRoot_fun hy hroot
      injection heq with hr hd
      subst hr hd
      have hne : r1 ≠ r := by omega
      have hp' : (l.set r r1)[r]? = some r1 := List.getElem?_set_self hlen2
      have h1' : (l.set r r1)[r1]? = some r1 := by
        rw [List.getElem?_set_ne (by omega)]
        exact h1
      have hr1root : chaseRoot (l.set r r1) l.length r1 = some (r1, 0) := by
        have h0 : chaseRoot (l.set r r1) (0 + 1) r1 = some (r1, 0) := chaseRoot_root h1'
        exact chaseRoot_mono h0 (by omega)
      refine ⟨1, ?_⟩
      rw [if_pos rfl, rootD, hlen, chaseRoot_step hp' hne, hr1root, Option.map_some']
    · have hp : l[y]? = some l[y] := List.getElem?_eq_some_iff.mpr ⟨hylen, rfl⟩
      have hp' : (l.set r2 r1)[y]? = some l[y] := by
        rw [List.getElem?_set_ne (by omega)]
        exact hp
      by_cases hpy : l[y] = y
      · have hroot : rootD l y = some (y, 0) := rootD_root (by rwa [hpy] at hp)
        have heq := chaseRoot_fun hy hroot
        injection heq with hr hd
        subst hr hd
        refine ⟨0, ?_⟩
        rw [if_neg hy2, rootD, hlen]
        exact chaseRoot_root (by rwa [hpy] at hp')
      · rw [rootD, chaseRoot_step hp hpy] at hy
        cases hq : chaseRoot l l.length l[y] with
        | none => rw [hq] at hy; simp at hy
        | some q =>
          rw [hq, Option.map_some'] at hy
          injection hy with hy'
          injection hy' with hq1 hq2
          subst hq1
          subst hq2
          have hqD : rootD l l[y] = some (q.1, q.2) := chaseRoot_mono hq (by omega)
          obtain ⟨d'', hd''⟩ := ih q.2 (by omega) l[y] q.1 hqD
          refine ⟨d'' + 1, ?_⟩
          have hpylt : l[y] < y := lt_of_le_of_ne (hple y l[y] hp) hpy
          have hd''lt : d'' ≤ l[y] := by
            obtain ⟨r', dd, hrd', _, hddle⟩ := parentLE_rootD hple' l[y] (by omega)
            have heq2 := chaseRoot_fun hd'' hrd'
            injection heq2 with e1 e2
            omega
          have hfit : chaseRoot (l.set r2 r1) l.length l[y] =
              some (if q.1 = r2 then r1 else q.1, d'') :=
            chaseRoot_mono (chaseRoot_min_fuel hd'') (by omega)
          rw [rootD, hlen, chaseRoot_step hp' hpy, hfit, Option.map_some']

/-- The step from a node to its parent loses at most one level of depth
and keeps the root. -/
theorem rootD_parent {l : List Nat} {y p r d : Nat}
    (hy : rootD l y = some (r, d)) (hp : l[y]? = some p) :
    ∃ dp ≤ d, rootD l p = some (r, dp) := by
  by_cases hpy : p = y
  · exact ⟨d, le_refl d, hpy ▸ hy⟩
  · rw [rootD, chaseRoot_step hp hpy] at hy
    cases hq : chaseRoot l l.length p with
    | none => rw [hq] at hy; simp at hy
    | some q =>
      rw [hq, Option.map_some'] at hy
      injection hy with hy'
      injection hy' with hq1 hq2
      subst hq1
      exact ⟨q.2, by omega, chaseRoot_mono hq (by omega)⟩

/-- The step from a non-root node to its parent loses exactly one level. -/
theorem rootD_parent_strict {l : List Nat} {y p r d : Nat}
    (hy : rootD l y = some (r, d)) (hp : l[y]? = some p) (hpy : p ≠ y) :
    d ≠ 0 ∧ rootD l p = some (r, d - 1) := by
  rw [rootD, chaseRoot_step hp hpy] at hy
  cases hq : chaseRoot l l.length p with
  | none => rw [hq] at hy; simp at hy
  | some q =>
    rw [hq, Option.map_some'] at hy
    injection hy with hy'
    injection hy' with hq1 hq2
    subst hq1
    refine ⟨by omega, ?_⟩
    have : q.2 = d - 1 := by omega
    rw [← this]
    exact chaseRoot_mono hq (by omega)

theorem rootsPres_refl (l : List Nat) : RootsPres l l :=
  ⟨rfl, fun _ _ d h => ⟨d, le_refl d, h⟩, fun _ => Iff.rfl⟩

theorem rootsPres_trans {l1 l2 l3 : List Nat} (h12 : RootsPres l1 l2) (h23 : RootsPres l2 l3) :
    RootsPres l1 l3 := by
  obtain ⟨hlen12, hroot12, hself12⟩ := h12
  obtain ⟨hlen23, hroot23, hself23⟩ := h23
  refine ⟨hlen23.trans hlen12, ?_, fun j => (hself23 j).trans (hself12 j)⟩
  intro y r d h
  obtain ⟨d', hle', h'⟩ := hroot12 y r d h
  obtain ⟨d'', hle'', h''⟩ := hroot23 y r d' h'
  exact ⟨d'', by omega, h''⟩

/-- The single halving write `l[i] := l[l[i]]` (for `l[i] ≠ i`) is a
`RootsPres` step. -/
theorem rootsPres_set_ancestor {l : List Nat} {i g ri di dg : Nat}
    (hi : rootD l i = some (ri, di)) (hg : rootD l g = some (ri, dg)) (hlt : dg < di) :
    RootsPres l (l.set i g) := by
  have hilen : i < l.length := chaseRoot_idx_lt hi
  refine ⟨List.length_set l i g, rootD_set_ancestor hi hg hlt, ?_⟩
  intro j
  by_cases hji : j = i
  · subst hji
    have hgi : g ≠ j := by
      intro hcon
      subst hcon
      have := chaseRoot_fun hg hi
      injection this with e1 e2
      omega
    have hjroot : l[j]? = some j → False := by
      intro hr
      have := chaseRoot_fun hi (rootD_root hr)
      injection this with e1 e2
      omega
    rw [List.getElem?_set_self hilen]
    constructor
    · intro hcon
      injection hcon with hcon
      exact absurd hcon hgi
    · intro hcon
      exact absurd hcon hjroot
  · rw [List.getElem?_set_ne (by omega)]

theorem ebind_ok {α β : Type} (a : α) (g : α → Except CErr β) :
    (Except.ok a >>= g) = g a := rfl

theorem ebind_err {α β : Type} (e : CErr) (g : α → Except CErr β) :
    ((Except.error e : Except CErr α) >>= g) = .error e := rfl

/-- `find_root_halving` returns the chase root, preserves every node's
root, the set of self-parented entries and `parentLE`, whenever its fuel
exceeds the depth of its argument. -/
theorem find_root_halving_ok {d : Nat} :
    ∀ {l : List Nat} {i r : Nat}, rootD l i = some (r, d) →
      ∀ fuel : Nat, d + 1 ≤ fuel →
        ∃ l', find_root_halving fuel l i = .ok (l', r) ∧ RootsPres l l' ∧
          (parentLE l → parentLE l') := by
  induction d using Nat.strong_induction_on with
  | _ d ih =>
    intro l i r h fuel hfuel
    obtain ⟨f, rfl⟩ : ∃ f, fuel = f + 1 := ⟨fuel - 1, by omega⟩
    have hil : i < l.length := chaseRoot_idx_lt h
    rw [find_root_halving, rd_of_lt hil, ebind_ok]
    by_cases hroot : l[i] = i
    · have heq := chaseRoot_fun h (rootD_root (List.getElem?_eq_some_iff.mpr ⟨hil, hroot⟩))
      injection heq with hr hd
      subst hr hd
      rw [if_pos hroot]
      exact ⟨l, rfl, rootsPres_refl l, fun hple => hple⟩
    · rw [if_neg hroot]
      have hp : l[i]? = some l[i] := List.getElem?_eq_some_iff.mpr ⟨hil, rfl⟩
      obtain ⟨hd0, hli⟩ := rootD_parent_strict h hp hroot
      have hlilen : l[i] < l.length := chaseRoot_idx_lt hli
      have hgp : l[l[i]]? = some l[l[i]] := List.getElem?_eq_some_iff.mpr ⟨hlilen, rfl⟩
      obtain ⟨dgp, hdgple, hgpD⟩ := rootD_parent hli hgp
      rw [rd_of_lt hlilen, ebind_ok]
      have hwr : wr l i l[l[i]] = .ok (l.set i l[l[i]]) := by
        rw [wr_ok_iff]
        exact ⟨hil, rfl⟩
      rw [hwr, ebind_ok]
      have hrd' : rd (l.set i l[l[i]]) i = .ok l[l[i]] := by
        rw [rd_ok_iff]
        exact List.getElem?_set_self hil
      rw [hrd', ebind_ok]
      have hdgplt : dgp < d := by omega
      have hpres : RootsPres l (l.set i l[l[i]]) := rootsPres_set_ancestor h hgpD hdgplt
      obtain ⟨d', hd'le, hgpD'⟩ := hpres.2.1 l[l[i]] r dgp hgpD
      obtain ⟨l'', hfind, hpres', hple'⟩ := ih d' (by omega) hgpD' f (by omega)
      refine ⟨l'', hfind, rootsPres_trans hpres hpres', ?_⟩
      intro hple
      refine hple' (parentLE_set hple ?_)
      exact le_trans (hple l[i] l[l[i]] hgp) (hple i l[i] hp)

theorem fc_chase_ok {d : Nat} :
    ∀ {l : List Nat} {i r : Nat}, rootD l i = some (r, d) →
      ∀ fuel : Nat, d + 1 ≤ fuel → fc_chase fuel l i = .ok r := by
  induction d using Nat.strong_induction_on with
  | _ d ih =>
    intro l i r h fuel hfuel
    obtain ⟨f, rfl⟩ : ∃ f, fuel = f + 1 := ⟨fuel - 1, by omega⟩
    have hil : i < l.length := chaseRoot_idx_lt h
    rw [fc_chase, rd_of_lt hil, ebind_ok]
    by_cases hroot : l[i] = i
    · have heq := chaseRoot_fun h (rootD_root (List.getElem?_eq_some_iff.mpr ⟨hil, hroot⟩))
      injection heq with hr hd
      subst hr
      rw [if_pos hroot]
    · rw [if_neg hroot]
      have hp : l[i]? = some l[i] := List.getElem?_eq_some_iff.mpr ⟨hil, rfl⟩
      obtain ⟨hd0, hli⟩ := rootD_parent_strict h hp hroot
      exact ih (d - 1) (by omega) hli f (by omega)

theorem fc_compress_ok {l : List Nat} {x root fuel : Nat} (hfuel : 1 ≤ fuel)
    (hx : x ≠ root → x < l.length) : fc_compress fuel l x root = .ok l := by
  obtain ⟨f, rfl⟩ : ∃ f, fuel = f + 1 := ⟨fuel - 1, by omega⟩
  rw [fc_compress]
  by_cases hxr : x = root
  · rw [if_pos hxr]
  · rw [if_neg hxr, rd_of_lt (hx hxr), ebind_ok, ebind_ok, if_pos rfl]

/-- In the sequential semantics `find_compress` finds the root and does
not modify the array at all. -/
theorem find_compress_ok {l : List Nat} {i r d : Nat}
    (h : rootD l i = some (r, d)) (fuel : Nat) (hfuel : d + 1 ≤ fuel) :
    find_compress fuel l i = .ok (l, r) := by
  rw [find_compress, fc_chase_ok h fuel hfuel, ebind_ok,
    fc_compress_ok (by omega) (fun _ => chaseRoot_idx_lt h), ebind_ok]

theorem rootOf_eq_some_iff {l : List Nat} {i r : Nat} :
    rootOf l i = some r ↔ ∃ d : Nat, rootD l i = some (r, d) := by
  unfold rootOf
  cases h : rootD l i with
  | none => simp
  | some q =>
    simp only [Option.map_some', Option.some.injEq]
    constructor
    · intro hq
      exact ⟨q.2, by rw [← hq]⟩
    · intro ⟨d, hd⟩
      rw [hd]

/-- A root of the forest is its own root. -/
theorem rootOf_self {l : List Nat} {r : Nat} (h : l[r]? = some r) : rootOf l r = some r := by
  rw [rootOf_eq_some_iff]
  exact ⟨0, rootD_root h⟩

/-- `union_nodes_by_index` merges the two trees: afterwards the root map
sends the larger of the two old roots to the smaller one and fixes every
other root. -/
theorem union_nodes_by_index_ok {l : List Nat} {a b ra da rb db : Nat}
    (hple : parentLE l) (ha : rootD l a = some (ra, da)) (hb : rootD l b = some (rb, db)) :
    ∃ (l' : List Nat) (c : Bool), union_nodes_by_index l a b = .ok (l', c) ∧
      l'.length = l.length ∧ parentLE l' ∧
      ∀ x rx : Nat, rootOf l x = some rx →
        rootOf l' x = some (if rx = max ra rb then min ra rb else rx) := by
  have hda : da < l.length + 1 := chaseRoot_depth_lt_fuel ha
  obtain ⟨l1, hfind1, hpres1, hple1f⟩ := find_root_halving_ok ha (l.length + 1) (by omega)
  have hple1 : parentLE l1 := hple1f hple
  have hlen1 : l1.length = l.length := hpres1.1
  obtain ⟨db1, hdb1le, hb1⟩ := hpres1.2.1 b rb db hb
  have hdb1 : db1 < l1.length + 1 := chaseRoot_depth_lt_fuel hb1
  obtain ⟨l2, hfind2, hpres2, hple2f⟩ := find_root_halving_ok hb1 (l1.length + 1) (by omega)
  have hple2 : parentLE l2 := hple2f hple1
  have hpres12 : RootsPres l l2 := rootsPres_trans hpres1 hpres2
  have hlen2 : l2.length = l.length := hpres12.1
  have hraSelf : l2[ra]? = some ra := (hpres12.2.2 ra).mpr (chaseRoot_isRoot ha)
  have hrbSelf : l2[rb]? = some rb := (hpres12.2.2 rb).mpr (chaseRoot_isRoot hb)
  have hmap12 : ∀ x rx : Nat, rootOf l x = some rx → rootOf l2 x = some rx := by
    intro x rx hx
    obtain ⟨dx, hdx⟩ := rootOf_eq_some_iff.mp hx
    obtain ⟨dx', _, hdx'⟩ := hpres12.2.1 x rx dx hdx
    exact rootOf_eq_some_iff.mpr ⟨dx', hdx'⟩
  rw [union_nodes_by_index, hfind1, ebind_ok]
  dsimp only
  rw [hfind2, ebind_ok]
  dsimp only
  by_cases hrr : ra = rb
  · subst hrr
    rw [if_pos rfl]
    refine ⟨l2, false, rfl, hlen2, hple2, ?_⟩
    intro x rx hx
    have := hmap12 x rx hx
    rcases eq_or_ne rx ra with hx' | hx' <;> simp [hx', this]
  · have hmerge : ∀ rsm rlg : Nat, rsm < rlg → l2[rsm]? = some rsm → l2[rlg]? = some rlg →
        ∀ x rx : Nat, rootOf l x = some rx →
          rootOf (l2.set rlg rsm) x = some (if rx = rlg then rsm else rx) := by
      intro rsm rlg hlt hsm hlg x rx hx
      have hx2 := hmap12 x rx hx
      obtain ⟨dx, hdx⟩ := rootOf_eq_some_iff.mp hx2
      obtain ⟨d', hd'⟩ := rootD_merge hple2 hsm hlg hlt x rx dx hdx
      exact rootOf_eq_some_iff.mpr ⟨d', hd'⟩
    by_cases hlt : ra < rb
    · rw [if_neg hrr, if_pos hlt]
      have hwr : wr l2 rb ra = .ok (l2.set rb ra) :=
        wr_ok_iff.mpr ⟨(List.getElem?_eq_some_iff.mp hrbSelf).1, rfl⟩
      rw [hwr, ebind_ok]
      refine ⟨l2.set rb ra, true, rfl, by rw [List.length_set, hlen2], 
        parentLE_set hple2 (le_of_lt hlt), ?_⟩
      intro x rx hx
      have := hmerge ra rb hlt hraSelf hrbSelf x rx hx
      rw [this, Nat.max_eq_right (le_of_lt hlt), Nat.min_eq_left (le_of_lt hlt)]
    · have hgt : rb < ra := by omega
      rw [if_neg hrr, if_neg hlt]
      have hwr : wr l2 ra rb = .ok (l2.set ra rb) :=
        wr_ok_iff.mpr ⟨(List.getElem?_eq_some_iff.mp hraSelf).1, rfl⟩
      rw [hwr, ebind_ok]
      refine ⟨l2.set ra rb, true, rfl, by rw [List.length_set, hlen2],
        parentLE_set hple2 (le_of_lt hgt), ?_⟩
      intro x rx hx
      have := hmerge rb ra hgt hrbSelf hraSelf x rx hx
      rw [this, Nat.max_eq_left (le_of_lt hgt), Nat.min_eq_right (le_of_lt hgt)]

theorem pairSym_symm {es : List (Nat × Nat)} : Symmetric (pairSym es) := by
  intro a b h
  exact h.symm

theorem connList_symm {es : List (Nat × Nat)} {x y : Nat} (h : connList es x y) :
    connList es y x :=
  Relation.ReflTransGen.symmetric pairSym_symm h

theorem connList_mono {es es' : List (Nat × Nat)} (hsub : ∀ e ∈ es, e ∈ es')
    {x y : Nat} (h : connList es x y) : connList es' x y := by
  refine Relation.ReflTransGen.mono ?_ h
  intro a b hab
  rcases hab with hab | hab
  · exact Or.inl (hsub _ hab)
  · exact Or.inr (hsub _ hab)

/-- Extending the edge list by one edge `(a, b)` joins exactly the
classes of `a` and of `b`. -/
theorem connList_snoc {es : List (Nat × Nat)} {a b x y : Nat} :
    connList (es ++ [(a, b)]) x y ↔
      connList es x y ∨ (connList es x a ∧ connList es b y) ∨
        (connList es x b ∧ connList es a y) := by
  constructor
  · intro h
    induction h with
    | refl => exact Or.inl Relation.ReflTransGen.refl
    | tail hxc hstep ih =>
      rename_i c y'
      have hstep' : pairSym es c y' ∨ (c = a ∧ y' = b) ∨ (c = b ∧ y' = a) := by
        rcases hstep with hm | hm <;> rw [List.mem_append, List.mem_singleton] at hm
        · rcases hm with hm | hm
          · exact Or.inl (Or.inl hm)
          · injection hm with h1 h2
            exact Or.inr (Or.inl ⟨h1, h2⟩)
        · rcases hm with hm | hm
          · exact Or.inl (Or.inr hm)
          · injection hm with h1 h2
            exact Or.inr (Or.inr ⟨h2, h1⟩)
      rcases hstep' with hold | ⟨rfl, rfl⟩ | ⟨rfl, rfl⟩
      · rcases ih with hA | ⟨hB1, hB2⟩ | ⟨hC1, hC2⟩
        · exact Or.inl (hA.tail hold)
        · exact Or.inr (Or.inl ⟨hB1, hB2.tail hold⟩)
        · exact Or.inr (Or.inr ⟨hC1, hC2.tail hold⟩)
      · rcases ih with hA | ⟨hB1, hB2⟩ | ⟨hC1, hC2⟩
        · exact Or.inr (Or.inl ⟨hA, Relation.ReflTransGen.refl⟩)
        · exact Or.inr (Or.inl ⟨hB1, Relation.ReflTransGen.refl⟩)
        · exact Or.inl hC1
      · rcases ih with hA | ⟨hB1, hB2⟩ | ⟨hC1, hC2⟩
        · exact Or.inr (Or.inr ⟨hA, Relation.ReflTransGen.refl⟩)
        · exact Or.inl hB1
        · exact Or.inr (Or.inr ⟨hC1, Relation.ReflTransGen.refl⟩)
  · have hmono : ∀ u v : Nat, connList es u v → connList (es ++ [(a, b)]) u v := by
      intro u v
      exact connList_mono (fun e he => List.mem_append.mpr (Or.inl he))
    have hnew : connList (es ++ [(a, b)]) a b :=
      Relation.ReflTransGen.single (Or.inl (List.mem_append.mpr (Or.inr (List.mem_singleton.mpr rfl))))
    rintro (hA | ⟨hB1, hB2⟩ | ⟨hC1, hC2⟩)
    · exact hmono x y hA
    · exact ((hmono x a hB1).trans hnew).trans (hmono b y hB2)
    · exact ((hmono x b hC1).trans (connList_symm hnew)).trans (hmono a y hC2)

theorem merge_map_eq_iff {ra rb rx ry : Nat} :
    (if rx = max ra rb then min ra rb else rx) = (if ry = max ra rb then min ra rb else ry) ↔
      (rx = ry ∨ (rx = ra ∧ ry = rb) ∨ (rx = rb ∧ ry = ra)) := by
  split_ifs <;> omega

theorem UFInv_total {n : Nat} {es : List (Nat × Nat)} {l : List Nat}
    (hinv : UFInv n es l) {x : Nat} (hx : x < n) : ∃ rx : Nat, rootOf l x = some rx := by
  obtain ⟨r, h1, _⟩ := (hinv.2.2 x x hx hx).mpr Relation.ReflTransGen.refl
  exact ⟨r, h1⟩

/-- Processing one edge: the sequential engine calls
`union_nodes_by_index(label, col, row)` for a stored pair `(row, col)`;
afterwards the invariant holds for the extended edge list. -/
theorem UFInv_union {n : Nat} {es : List (Nat × Nat)} {l : List Nat} {a b : Nat}
    (hinv : UFInv n es l) (ha : a < n) (hb : b < n) :
    ∃ (l' : List Nat) (c : Bool), union_nodes_by_index l a b = .ok (l', c) ∧
      UFInv n (es ++ [(b, a)]) l' := by
  obtain ⟨hlen, hple, hpart⟩ := hinv
  obtain ⟨ra, hra⟩ := UFInv_total ⟨hlen, hple, hpart⟩ ha
  obtain ⟨rb, hrb⟩ := UFInv_total ⟨hlen, hple, hpart⟩ hb
  obtain ⟨da, hraD⟩ := rootOf_eq_some_iff.mp hra
  obtain ⟨db, hrbD⟩ := rootOf_eq_some_iff.mp hrb
  obtain ⟨l', c, hrun, hlen', hple', hmap⟩ := union_nodes_by_index_ok hple hraD hrbD
  refine ⟨l', c, hrun, hlen'.trans hlen, hple', ?_⟩
  intro x y hx hy
  obtain ⟨rx, hrx⟩ := UFInv_total ⟨hlen, hple, hpart⟩ hx
  obtain ⟨ry, hry⟩ := UFInv_total ⟨hlen, hple, hpart⟩ hy
  have hsame : sameRoot l' x y ↔
      (if rx = max ra rb then min ra rb else rx) = (if ry = max ra rb then min ra rb else ry) := by
    constructor
    · intro ⟨r, h1, h2⟩
      rw [hmap x rx hrx] at h1
      rw [hmap y ry hry] at h2
      injection h1 with h1
      injection h2 with h2
      rw [h1, h2]
    · intro h
      exact ⟨_, hmap x rx hrx, by rw [hmap y ry hry, h]⟩
  have hxa : sameRoot l x a ↔ rx = ra := by
    constructor
    · intro ⟨r, h1, h2⟩
      rw [hrx] at h1
      rw [hra] at h2
      injection h1 with h1
      injection h2 with h2
      omega
    · intro h
      exact ⟨ra, by rw [hrx, h], hra⟩
  have hxb : sameRoot l x b ↔ rx = rb := by
    constructor
    · intro ⟨r, h1, h2⟩
      rw [hrx] at h1
      rw [hrb] at h2
      injection h1 with h1
      injection h2 with h2
      omega
    · intro h
      exact ⟨rb, by rw [hrx, h], hrb⟩
  have hay : sameRoot l a y ↔ ra = ry := by
    constructor
    · intro ⟨r, h1, h2⟩
      rw [hra] at h1
      rw [hry] at h2
      injection h1 with h1
      injection h2 with h2
      omega
    · intro h
      exact ⟨ry, by rw [hra, h], hry⟩
  have hby : sameRoot l b y ↔ rb = ry := by
    constructor
    · intro ⟨r, h1, h2⟩
      rw [hrb] at h1
      rw [hry] at h2
      injection h1 with h1
      injection h2 with h2
      omega
    · intro h
      exact ⟨ry, by rw [hrb, h], hry⟩
  have hxy : sameRoot l x y ↔ rx = ry := by
    constructor
    · intro ⟨r, h1, h2⟩
      rw [hrx] at h1
      rw [hry] at h2
      injection h1 with h1
      injection h2 with h2
      omega
    · intro h
      exact ⟨ry, by rw [hrx, h], hry⟩
  rw [hsame, merge_map_eq_iff, connList_snoc]
  rw [← hpart x y hx hy, ← (hpart x a hx ha), ← (hpart x b hx hb),
    ← (hpart b y hb hy), ← (hpart a y ha hy), hxy, hxa, hxb, hay, hby]
  constructor
  · rintro (h | ⟨h1, h2⟩ | ⟨h1, h2⟩)
    · exact Or.inl h
    · exact Or.inr (Or.inr ⟨h1, by omega⟩)
    · exact Or.inr (Or.inl ⟨h1, by omega⟩)
  · rintro (h | ⟨h1, h2⟩ | ⟨h1, h2⟩)
    · exact Or.inl h
    · exact Or.inr (Or.inr ⟨h1, by omega⟩)
    · exact Or.inr (Or.inl ⟨h1, by omega⟩)

theorem processEdges_append (l : List Nat) (es1 es2 : List (Nat × Nat)) :
    processEdges l (es1 ++ es2) =
      (processEdges l es1) >>= (fun l' => processEdges l' es2) := by
  induction es1 generalizing l with
  | nil =>
    rw [List.nil_append, processEdges, ebind_ok]
  | cons e es ih =>
    rw [List.cons_append, processEdges, processEdges]
    cases h : union_nodes_by_index l e.2 e.1 with
    | error err => rw [ebind_err, ebind_err, ebind_err]
    | ok p => rw [ebind_ok, ebind_ok]; exact ih p.1

theorem connList_nil {x y : Nat} : connList [] x y ↔ x = y := by
  constructor
  · intro h
    induction h with
    | refl => rfl
    | tail _ hstep _ => rcases hstep with hm | hm <;> simp at hm
  · rintro rfl
    exact Relation.ReflTransGen.refl

/-- The invariant the initial store `label[i] = i` satisfies. -/
theorem UFInv_init (n : Nat) : UFInv n [] (List.range n) := by
  refine ⟨List.length_range n, ?_, ?_⟩
  · intro i p hp
    have hi : i < n := (List.getElem?_eq_some_iff.mp hp).1.trans_eq (List.length_range n)
    rw [List.getElem?_range hi] at hp
    injection hp with hp
    omega
  · intro x y hx hy
    rw [connList_nil]
    have hroot : ∀ z : Nat, z < n → rootOf (List.range n) z = some z := by
      intro z hz
      apply rootOf_self
      exact List.getElem?_range hz
    constructor
    · intro ⟨r, h1, h2⟩
      rw [hroot x hx] at h1
      rw [hroot y hy] at h2
      injection h1 with h1
      injection h2 with h2
      omega
    · rintro rfl
      exact ⟨x, hroot x hx, hroot x hx⟩

theorem processEdges_inv {n : Nat} :
    ∀ (es done : List (Nat × Nat)) (l : List Nat), UFInv n done l →
      (∀ e ∈ es, e.1 < n ∧ e.2 < n) →
      ∃ l' : List Nat, processEdges l es = .ok l' ∧ UFInv n (done ++ es) l' := by
  intro es
  induction es with
  | nil =>
    intro done l hinv _
    exact ⟨l, rfl, by simpa using hinv⟩
  | cons e es ih =>
    intro done l hinv hbound
    have he := hbound e (List.mem_cons_self e es)
    obtain ⟨l1, c, hrun, hinv1⟩ := UFInv_union hinv he.2 he.1
    have hinv1' : UFInv n (done ++ [e]) l1 := by
      have : ((e.1 : Nat), (e.2 : Nat)) = e := rfl
      rwa [this] at hinv1
    obtain ⟨l', hrun', hinv'⟩ :=
      ih (done ++ [e]) l1 hinv1' (fun e' he' => hbound e' (List.mem_cons_of_mem e he'))
    refine ⟨l', ?_, by rwa [List.append_assoc, List.singleton_append] at hinv'⟩
    rw [processEdges, hrun, ebind_ok]
    exact hrun'

/-- On a store satisfying the union-find invariant, the roots are exactly
the minima of the reachability classes. -/
theorem root_iff_minimal {n : Nat} {es : List (Nat × Nat)} {l : List Nat}
    (hinv : UFInv n es l) {i : Nat} (hi : i < n) :
    l.getD i 0 = i ↔ (∀ j : Nat, j < i → ¬ connList es i j) := by
  obtain ⟨hlen, hple, hpart⟩ := hinv
  have hilen : i < l.length := by omega
  have hgd : l.getD i 0 = l[i] := List.getD_eq_getElem l 0 hilen
  have hp : l[i]? = some l[i] := List.getElem?_eq_some_iff.mpr ⟨hilen, rfl⟩
  constructor
  · intro hroot j hj hconn
    have hii : l[i] = i := by rw [← hgd, hroot]
    have hself : rootOf l i = some i := rootOf_self (by rw [hp, hii])
    obtain ⟨r, hr1, hr2⟩ := (hpart i j hi (by omega)).mpr hconn
    rw [hself] at hr1
    injection hr1 with hr1
    obtain ⟨rj, dj, hrdj, hrj, _⟩ := parentLE_rootD hple j (by omega)
    have : rootOf l j = some rj := rootOf_eq_some_iff.mpr ⟨dj, hrdj⟩
    rw [this] at hr2
    injection hr2 with hr2
    omega
  · intro hmin
    obtain ⟨ri, di, hrdi, hri, _⟩ := parentLE_rootD hple i hilen
    have hiroot : rootOf l i = some ri := rootOf_eq_some_iff.mpr ⟨di, hrdi⟩
    have hriself : rootOf l ri = some ri := rootOf_self (chaseRoot_isRoot hrdi)
    by_cases hrii : ri = i
    · subst hrii
      have := chaseRoot_isRoot hrdi
      rw [hp] at this
      injection this with this
      rw [hgd, this]
    · exfalso
      have hrilt : ri < i := lt_of_le_of_ne hri hrii
      exact hmin ri hrilt ((hpart i ri hi (by omega)).mp ⟨ri, hiroot, hriself⟩)

/-- `RootsPres` steps (in particular the final compression pass) do not
change the root count. -/
theorem countRoots_pres {l l' : List Nat} {n : Nat} (hpres : RootsPres l l')
    (hn : n ≤ l.length) : countRoots l' n = countRoots l n := by
  unfold countRoots
  apply List.countP_congr
  intro i hi
  have hilen : i < l.length := lt_of_lt_of_le (List.mem_range.mp hi) hn
  have hilen' : i < l'.length := by rw [hpres.1]; exact hilen
  have h1 : l.getD i 0 = l[i] := List.getD_eq_getElem l 0 hilen
  have h2 : l'.getD i 0 = l'[i] := List.getD_eq_getElem l' 0 hilen'
  have hiff := hpres.2.2 i
  have e1 : (l.getD i 0 == i) = true ↔ l[i]? = some i := by
    rw [h1, beq_iff_eq]
    constructor
    · intro h
      exact List.getElem?_eq_some_iff.mpr ⟨hilen, h⟩
    · intro h
      exact (List.getElem?_eq_some_iff.mp h).2
  have e2 : (l'.getD i 0 == i) = true ↔ l'[i]? = some i := by
    rw [h2, beq_iff_eq]
    constructor
    · intro h
      exact List.getElem?_eq_some_iff.mpr ⟨hilen', h⟩
    · intro h
      exact (List.getElem?_eq_some_iff.mp h).2
  rw [e1, e2]
  exact hiff

theorem wfChk_iff {m : CSCBinaryMatrix} : wfChk m = true ↔ WF m := by
  unfold wfChk
  simp only [Bool.and_eq_true, beq_iff_eq, List.all_eq_true, decide_eq_true_eq,
    List.mem_range]
  constructor
  · intro ⟨⟨⟨⟨⟨⟨h1, h2⟩, h3⟩, h4⟩, h5⟩, h6⟩, h7⟩
    exact ⟨h1, h2, h3, h4, h5, h6, h7⟩
  · intro h
    exact ⟨⟨⟨⟨⟨⟨h.cp_len, h.ri_len⟩, h.mono⟩, h.first⟩, h.last⟩, h.rows_lt⟩, h.cols_le⟩

theorem WF.cp_mono {m : CSCBinaryMatrix} (h : WF m) :
    ∀ i j : Nat, i ≤ j → j ≤ m.ncols → m.col_ptr.getD i 0 ≤ m.col_ptr.getD j 0 := by
  intro i j hij hj
  induction j with
  | zero =>
    have hi0 : i = 0 := by omega
    rw [hi0]
  | succ j ihj =>
    rcases Nat.lt_or_ge i (j + 1) with hlt | hge
    · exact le_trans (ihj (by omega) (by omega)) (h.mono j (by omega))
    · have : i = j + 1 := by omega
      rw [this]
  
theorem WF.cp_le_nnz {m : CSCBinaryMatrix} (h : WF m) {i : Nat} (hi : i ≤ m.ncols) :
    m.col_ptr.getD i 0 ≤ m.nnz := by
  rw [← h.last]
  exact h.cp_mono i m.ncols hi (le_refl _)

theorem edgeList_bounded {m : CSCBinaryMatrix} (h : WF m) :
    ∀ e ∈ edgeList m, e.1 < m.nrows ∧ e.2 < m.nrows := by
  intro e he
  rw [edgeList, List.mem_flatMap] at he
  obtain ⟨c, hc, hece⟩ := he
  rw [List.mem_range] at hc
  rw [colEdges, List.mem_map] at hece
  obtain ⟨k, hk, rfl⟩ := hece
  rw [List.mem_range] at hk
  constructor
  · have hpos : m.col_ptr.getD c 0 + k < m.nnz := by
      have hle := h.cp_le_nnz (show c + 1 ≤ m.ncols by omega)
      omega
    have hrl := h.ri_len
    have hlt : m.col_ptr.getD c 0 + k < m.row_idx.length := by omega
    rw [List.getD_eq_getElem m.row_idx 0 hlt]
    exact h.rows_lt _ (List.getElem_mem hlt)
  · have := h.cols_le
    omega

theorem processEdges_cons (l : List Nat) (a b : Nat) (es : List (Nat × Nat)) :
    processEdges l ((a, b) :: es) =
      union_nodes_by_index l b a >>= fun p => processEdges p.1 es := rfl

theorem ufInner_eq {m : CSCBinaryMatrix} {i : Nat} :
    ∀ (cnt j : Nat) (l : List Nat), j + cnt ≤ m.row_idx.length →
      ufInner m i j cnt l =
        processEdges l ((List.range cnt).map (fun k => (m.row_idx.getD (j + k) 0, i))) := by
  intro cnt
  induction cnt with
  | zero =>
    intro j l _
    rfl
  | succ cnt ih =>
    intro j l hle
    have hj : j < m.row_idx.length := by omega
    rw [ufInner, rd_of_lt hj, ebind_ok, List.range_succ_eq_map, List.map_cons, List.map_map,
      processEdges_cons]
    have hhead : m.row_idx.getD (j + 0) 0 = m.row_idx[j] := by
      rw [Nat.add_zero]
      exact List.getD_eq_getElem m.row_idx 0 hj
    rw [hhead]
    cases h : union_nodes_by_index l i m.row_idx[j] with
    | error err => rw [ebind_err, ebind_err]
    | ok p =>
      rw [ebind_ok, ebind_ok]
      dsimp only
      rw [ih (j + 1) p.1 (by omega)]
      congr 1
      apply List.map_congr_left
      intro k _
      have hadd : j + (k + 1) = j + 1 + k := by omega
      simp only [Function.comp_apply, hadd]

theorem ufCols_eq {m : CSCBinaryMatrix} (hwf : WF m) :
    ∀ (cnt i : Nat) (l : List Nat), i + cnt ≤ m.ncols →
      ufCols m i cnt l =
        processEdges l ((List.range cnt).flatMap (fun k => colEdges m (i + k))) := by
  intro cnt
  induction cnt with
  | zero =>
    intro i l _
    rfl
  | succ cnt ih =>
    intro i l hle
    have hcp : m.col_ptr.length = m.ncols + 1 := hwf.cp_len
    have hi : i < m.col_ptr.length := by omega
    have hi1 : i + 1 < m.col_ptr.length := by omega
    rw [ufCols, rd_of_lt hi, ebind_ok, rd_of_lt hi1, ebind_ok]
    have hgd : m.col_ptr[i] = m.col_ptr.getD i 0 := (List.getD_eq_getElem m.col_ptr 0 hi).symm
    have hgd1 : m.col_ptr[i+1] = m.col_ptr.getD (i + 1) 0 :=
      (List.getD_eq_getElem m.col_ptr 0 hi1).symm
    have hinner : ufInner m i m.col_ptr[i] (m.col_ptr[i+1] - m.col_ptr[i]) l =
        processEdges l (colEdges m i) := by
      rw [colEdges, ← hgd, ← hgd1]
      apply ufInner_eq
      have hmono := hwf.mono i (by omega)
      have hnnz := hwf.cp_le_nnz (show i + 1 ≤ m.ncols by omega)
      have hrl := hwf.ri_len
      rw [hgd, hgd1]
      omega
    rw [hinner, List.range_succ_eq_map, List.flatMap_cons, processEdges_append]
    have hzero : colEdges m (i + 0) = colEdges m i := by rw [Nat.add_zero]
    rw [hzero]
    cases h : processEdges l (colEdges m i) with
    | error err => rw [ebind_err, ebind_err]
    | ok l1 =>
      rw [ebind_ok, ebind_ok, ih (i + 1) l1 (by omega), List.flatMap_map]
      congr 1
      apply List.flatMap_congr
      intro k _
      have hadd : i + 1 + k = i + (k + 1) := by omega
      simp only [Function.comp_apply, hadd]

theorem ufFinal_ok :
    ∀ (cnt i : Nat) (l : List Nat), parentLE l → i + cnt ≤ l.length →
      ∃ l', ufFinal i cnt l = .ok l' ∧ RootsPres l l' ∧ parentLE l' := by
  intro cnt
  induction cnt with
  | zero =>
    intro i l hple _
    exact ⟨l, rfl, rootsPres_refl l, hple⟩
  | succ cnt ih =>
    intro i l hple hle
    obtain ⟨r, d, hrd, _, _⟩ := parentLE_rootD hple i (by omega)
    have hdlt : d < l.length + 1 := chaseRoot_depth_lt_fuel hrd
    obtain ⟨l1, hfind, hpres, hplef⟩ := find_root_halving_ok hrd (l.length + 1) (by omega)
    have hple1 := hplef hple
    obtain ⟨l', hrun, hpres', hple'⟩ := ih (i + 1) l1 hple1 (by rw [hpres.1]; omega)
    refine ⟨l', ?_, rootsPres_trans hpres hpres', hple'⟩
    rw [ufFinal, hfind, ebind_ok]
    exact hrun

/-- A `RootsPres` step preserves the whole union-find invariant. -/
theorem UFInv_pres {n : Nat} {es : List (Nat × Nat)} {l l' : List Nat}
    (hinv : UFInv n es l) (hpres : RootsPres l l') (hple' : parentLE l') :
    UFInv n es l' := by
  obtain ⟨hlen, hple, hpart⟩ := hinv
  refine ⟨hpres.1.trans hlen, hple', ?_⟩
  intro x y hx hy
  obtain ⟨rx, hrx⟩ := UFInv_total ⟨hlen, hple, hpart⟩ hx
  obtain ⟨ry, hry⟩ := UFInv_total ⟨hlen, hple, hpart⟩ hy
  have hmap : ∀ z rz : Nat, rootOf l z = some rz → rootOf l' z = some rz := by
    intro z rz hz
    obtain ⟨dz, hdz⟩ := rootOf_eq_some_iff.mp hz
    obtain ⟨dz', _, hdz'⟩ := hpres.2.1 z rz dz hdz
    exact rootOf_eq_some_iff.mpr ⟨dz', hdz'⟩
  rw [← hpart x y hx hy]
  constructor
  · intro ⟨r, h1, h2⟩
    rw [hmap x rx hrx] at h1
    rw [hmap y ry hry] at h2
    injection h1 with h1
    injection h2 with h2
    exact ⟨rx, hrx, by rw [hry, h1, h2]⟩
  · intro ⟨r, h1, h2⟩
    exact ⟨r, hmap x r h1, hmap y r h2⟩

theorem mem_nbrs {es : List (Nat × Nat)} {a b : Nat} : b ∈ nbrs es a ↔ pairSym es a b := by
  unfold nbrs pairSym
  rw [List.mem_filterMap]
  constructor
  · rintro ⟨e, he, hsome⟩
    split_ifs at hsome with h1 h2
    · injection hsome with h
      left
      have he' : e = (a, b) := Prod.ext h1 h
      rwa [he'] at he
    · injection hsome with h
      right
      have he' : e = (b, a) := Prod.ext h h2
      rwa [he'] at he
  · rintro (h | h)
    · exact ⟨(a, b), h, by simp⟩
    · by_cases hab : b = a
      · subst hab
        exact ⟨(b, b), h, by simp⟩
      · exact ⟨(b, a), h, by simp [hab]⟩

theorem subset_stepSet {es : List (Nat × Nat)} (s : Finset Nat) : s ⊆ stepSet es s :=
  Finset.subset_union_left

theorem iterate_subset {es : List (Nat × Nat)} (s : Finset Nat) :
    ∀ k : Nat, s ⊆ (stepSet es)^[k] s := by
  intro k
  induction k with
  | zero => exact subset_refl s
  | succ k ih =>
    rw [Function.iterate_succ_apply']
    exact subset_trans ih (subset_stepSet _)

theorem stepSet_bounded {es : List (Nat × Nat)} {n : Nat}
    (hbound : ∀ e ∈ es, e.1 < n ∧ e.2 < n) {s : Finset Nat}
    (hs : s ⊆ Finset.range n) : stepSet es s ⊆ Finset.range n := by
  intro b hb
  rw [stepSet, Finset.mem_union] at hb
  rcases hb with hb | hb
  · exact hs hb
  · rw [Finset.mem_biUnion] at hb
    obtain ⟨a, _, hmem⟩ := hb
    rw [List.mem_toFinset, mem_nbrs] at hmem
    rw [Finset.mem_range]
    rcases hmem with hm | hm
    · exact (hbound _ hm).2
    · exact (hbound _ hm).1

theorem iterate_bounded {es : List (Nat × Nat)} {n : Nat}
    (hbound : ∀ e ∈ es, e.1 < n ∧ e.2 < n) {s : Finset Nat}
    (hs : s ⊆ Finset.range n) (k : Nat) : (stepSet es)^[k] s ⊆ Finset.range n := by
  induction k with
  | zero => exact hs
  | succ k ih =>
    rw [Function.iterate_succ_apply']
    exact stepSet_bounded hbound ih

theorem iterate_sound {es : List (Nat × Nat)} :
    ∀ (k : Nat) (s : Finset Nat) (b : Nat), b ∈ (stepSet es)^[k] s →
      ∃ a ∈ s, connList es a b := by
  intro k
  induction k with
  | zero =>
    intro s b hb
    exact ⟨b, hb, Relation.ReflTransGen.refl⟩
  | succ k ih =>
    intro s b hb
    rw [Function.iterate_succ_apply', stepSet, Finset.mem_union] at hb
    rcases hb with hb | hb
    · exact ih s b hb
    · rw [Finset.mem_biUnion] at hb
      obtain ⟨c, hc, hmem⟩ := hb
      rw [List.mem_toFinset, mem_nbrs] at hmem
      obtain ⟨a, ha, hconn⟩ := ih s c hc
      exact ⟨a, ha, hconn.tail hmem⟩

theorem iterate_stab {F : Finset Nat → Finset Nat} {s : Finset Nat} {j : Nat}
    (hfix : F^[j] s = F^[j + 1] s) : ∀ k : Nat, j ≤ k → F^[k] s = F^[j] s := by
  intro k
  induction k with
  | zero =>
    intro hk
    have : j = 0 := by omega
    rw [this]
  | succ k ih =>
    intro hk
    rcases Nat.lt_or_ge j (k + 1) with hlt | hge
    · have hjk : j ≤ k := by omega
      have hsucc : F^[j + 1] s = F (F^[j] s) := Function.iterate_succ_apply' F j s
      rw [Function.iterate_succ_apply', ih hjk, ← hsucc, ← hfix]
    · have : j = k + 1 := by omega
      rw [this]

theorem card_grow {F : Finset Nat → Finset Nat} (hsub : ∀ s : Finset Nat, s ⊆ F s)
    (s : Finset Nat) :
    ∀ k : Nat, (∀ j : Nat, j < k → F^[j] s ≠ F^[j + 1] s) → s.card + k ≤ (F^[k] s).card := by
  intro k
  induction k with
  | zero => intro _; simp
  | succ k ih =>
    intro hne
    have h1 : s.card + k ≤ (F^[k] s).card := ih (fun j hj => hne j (by omega))
    have hss : F^[k] s ⊂ F^[k + 1] s := by
      have hsucc : F^[k + 1] s = F (F^[k] s) := Function.iterate_succ_apply' F k s
      rw [hsucc]
      exact ssubset_of_subset_of_ne (hsub _) (by rw [← hsucc]; exact hne k (by omega))
    have := Finset.card_lt_card hss
    omega

theorem reachSet_fixed {es : List (Nat × Nat)} {n a : Nat}
    (hbound : ∀ e ∈ es, e.1 < n ∧ e.2 < n) (ha : a < n) :
    stepSet es (reachSet es n a) = reachSet es n a := by
  have hsingle : ({a} : Finset Nat) ⊆ Finset.range n := by
    intro x hx
    rw [Finset.mem_singleton] at hx
    rw [Finset.mem_range, hx]
    exact ha
  have hex : ∃ j : Nat, j < n ∧ (stepSet es)^[j] {a} = (stepSet es)^[j + 1] {a} := by
    by_contra hno
    push_neg at hno
    have hgrow := card_grow (F := stepSet es) subset_stepSet {a} n (fun j hj => hno j hj)
    have hbounded := iterate_bounded hbound hsingle n
    have hle := Finset.card_le_card hbounded
    rw [Finset.card_singleton] at hgrow
    rw [Finset.card_range] at hle
    omega
  obtain ⟨j, hjn, hfix⟩ := hex
  have h1 : (stepSet es)^[n] {a} = (stepSet es)^[j] {a} := iterate_stab hfix n (by omega)
  have h2 : (stepSet es)^[n + 1] {a} = (stepSet es)^[j] {a} := iterate_stab hfix (n + 1) (by omega)
  rw [reachSet, ← Function.iterate_succ_apply' (stepSet es) n, h1, h2]

theorem connB_iff {es : List (Nat × Nat)} {n a b : Nat}
    (hbound : ∀ e ∈ es, e.1 < n ∧ e.2 < n) (ha : a < n) :
    connB es n a b = true ↔ connList es a b := by
  rw [connB, decide_eq_true_eq]
  constructor
  · intro hb
    obtain ⟨a', ha', hconn⟩ := iterate_sound n {a} b hb
    rw [Finset.mem_singleton] at ha'
    rwa [ha'] at hconn
  · intro hconn
    induction hconn with
    | refl => exact iterate_subset {a} n (Finset.mem_singleton_self a)
    | tail hac hstep ih =>
      have hfix := reachSet_fixed hbound ha
      rw [← hfix, stepSet, Finset.mem_union]
      right
      rw [Finset.mem_biUnion]
      rename_i c y'
      exact ⟨c, ih, by rw [List.mem_toFinset, mem_nbrs]; exact hstep⟩

/-- On a store satisfying the invariant for the full edge list, the root
count is the reference component count. -/
theorem countRoots_eq_numComponents {m : CSCBinaryMatrix} {l : List Nat} (hwf : WF m)
    (hinv : UFInv m.nrows (edgeList m) l) :
    countRoots l m.nrows = numComponents m := by
  unfold countRoots numComponents
  apply List.countP_congr
  intro i hi
  rw [List.mem_range] at hi
  rw [beq_iff_eq, root_iff_minimal hinv hi, List.all_eq_true]
  constructor
  · intro h j hj
    rw [List.mem_range] at hj
    rw [Bool.not_eq_eq_eq_not, Bool.not_true]
    rcases hb : connB (edgeList m) m.nrows i j with _ | _
    · rfl
    · exact absurd ((connB_iff (edgeList_bounded hwf) hi).mp hb) (h j hj)
  · intro h j hj hconn
    have hmem := h j (List.mem_range.mpr hj)
    rw [Bool.not_eq_eq_eq_not, Bool.not_true] at hmem
    rw [(connB_iff (edgeList_bounded hwf) hi).mpr hconn] at hmem
    exact absurd hmem (by simp)

theorem ufCols_all {m : CSCBinaryMatrix} (hwf : WF m) (l : List Nat) :
    ufCols m 0 m.ncols l = processEdges l (edgeList m) := by
  rw [ufCols_eq hwf m.ncols 0 l (by omega), edgeList]
  congr 1
  apply List.flatMap_congr
  intro k _
  rw [Nat.zero_add]

/-- The sequential union-find returns the reference component count on
every well-formed adjacency (together with its single allocation). -/
theorem cc_union_find_eq {m : CSCBinaryMatrix} (hwf : WF m) :
    cc_union_find (some m) = .ok ((numComponents m : Int), 1) := by
  obtain ⟨l1, hrun1, hinv1⟩ := processEdges_inv (edgeList m) [] (List.range m.nrows)
    (UFInv_init m.nrows) (edgeList_bounded hwf)
  rw [List.nil_append] at hinv1
  have hlen1 : l1.length = m.nrows := hinv1.1
  obtain ⟨l2, hrun2, hpres2, hple2⟩ := ufFinal_ok m.nrows 0 l1 hinv1.2.1 (by omega)
  have hinv2 := UFInv_pres hinv1 hpres2 hple2
  rw [cc_union_find]
  rw [show deref (some m) = .ok m from rfl, ebind_ok]
  simp only [ufCols_all hwf, hrun1, ebind_ok, hrun2]
  rw [countRoots_eq_numComponents hwf hinv2]

/-- Success inversion for `find_root_halving` on an arbitrary `parentLE`
store: the invariant and the length survive any successful call. -/
theorem find_root_halving_inv :
    ∀ (fuel : Nat) {l : List Nat} {i : Nat} {p : List Nat × Nat}, parentLE l →
      find_root_halving fuel l i = .ok p → parentLE p.1 ∧ p.1.length = l.length := by
  intro fuel
  induction fuel with
  | zero =>
    intro l i p _ hrun
    exact absurd hrun (by rw [find_root_halving]; simp)
  | succ fuel ih =>
    intro l i p hple hrun
    rw [find_root_halving] at hrun
    cases h1 : rd l i with
    | error e => rw [h1, ebind_err] at hrun; exact absurd hrun (by simp)
    | ok li =>
      rw [h1, ebind_ok] at hrun
      by_cases hli : li = i
      · rw [if_pos hli] at hrun
        injection hrun with hrun
        rw [← hrun]
        exact ⟨hple, rfl⟩
      · rw [if_neg hli] at hrun
        cases h2 : rd l li with
        | error e => rw [h2, ebind_err] at hrun; exact absurd hrun (by simp)
        | ok gp =>
          rw [h2, ebind_ok] at hrun
          cases h3 : wr l i gp with
          | error e => rw [h3, ebind_err] at hrun; exact absurd hrun (by simp)
          | ok l1 =>
            rw [h3, ebind_ok] at hrun
            cases h4 : rd l1 i with
            | error e => rw [h4, ebind_err] at hrun; exact absurd hrun (by simp)
            | ok i' =>
              rw [h4, ebind_ok] at hrun
              obtain ⟨hilen, rfl⟩ := wr_ok_iff.mp h3
              have hgpv : gp ≤ i := by
                have hA := hple i li (rd_ok_iff.mp h1)
                have hB := hple li gp (rd_ok_iff.mp h2)
                omega
              have hple1 : parentLE (l.set i gp) := parentLE_set hple hgpv
              obtain ⟨hple', hlen'⟩ := ih hple1 hrun
              exact ⟨hple', hlen'.trans (List.length_set l i gp)⟩

/-- Success inversion for `union_nodes_by_index`. -/
theorem union_nodes_by_index_inv {l : List Nat} {a b : Nat} {q : List Nat × Bool}
    (hple : parentLE l) (hrun : union_nodes_by_index l a b = .ok q) :
    parentLE q.1 ∧ q.1.length = l.length := by
  rw [union_nodes_by_index] at hrun
  cases h1 : find_root_halving (l.length + 1) l a with
  | error e => rw [h1, ebind_err] at hrun; exact absurd hrun (by simp)
  | ok p1 =>
    rw [h1, ebind_ok] at hrun
    dsimp only at hrun
    obtain ⟨hple1, hlen1⟩ := find_root_halving_inv _ hple h1
    cases h2 : find_root_halving (p1.1.length + 1) p1.1 b with
    | error e => rw [h2, ebind_err] at hrun; exact absurd hrun (by simp)
    | ok p2 =>
      rw [h2, ebind_ok] at hrun
      obtain ⟨hple2, hlen2⟩ := find_root_halving_inv _ hple1 h2
      have hlen21 : p2.1.length = l.length := hlen2.trans hlen1
      by_cases hrr : p1.2 = p2.2
      · rw [if_pos hrr] at hrun
        injection hrun with hrun
        rw [← hrun]
        exact ⟨hple2, hlen21⟩
      · rw [if_neg hrr] at hrun
        by_cases hlt : p1.2 < p2.2
        · rw [if_pos hlt] at hrun
          cases h3 : wr p2.1 p2.2 p1.2 with
          | error e => rw [h3, ebind_err] at hrun; exact absurd hrun (by simp)
          | ok l3 =>
            rw [h3, ebind_ok] at hrun
            injection hrun with hrun
            obtain ⟨hblen, rfl⟩ := wr_ok_iff.mp h3
            rw [← hrun]
            refine ⟨parentLE_set hple2 (le_of_lt hlt), ?_⟩
            rw [List.length_set]
            exact hlen21
        · rw [if_neg hlt] at hrun
          cases h3 : wr p2.1 p1.2 p2.2 with
          | error e => rw [h3, ebind_err] at hrun; exact absurd hrun (by simp)
          | ok l3 =>
            rw [h3, ebind_ok] at hrun
            injection hrun with hrun
            obtain ⟨hblen, rfl⟩ := wr_ok_iff.mp h3
            rw [← hrun]
            refine ⟨parentLE_set hple2 (by omega), ?_⟩
            rw [List.length_set]
            exact hlen21

/-- Success inversion for the inner edge loop. -/
theorem ufInner_inv {m : CSCBinaryMatrix} {i : Nat} :
    ∀ (cnt j : Nat) {l l' : List Nat}, parentLE l →
      ufInner m i j cnt l = .ok l' → parentLE l' ∧ l'.length = l.length := by
  intro cnt
  induction cnt with
  | zero =>
    intro j l l' hple hrun
    rw [ufInner] at hrun
    injection hrun with hrun
    rw [← hrun]
    exact ⟨hple, rfl⟩
  | succ cnt ih =>
    intro j l l' hple hrun
    rw [ufInner] at hrun
    cases h1 : rd m.row_idx j with
    | error e => rw [h1, ebind_err] at hrun; exact absurd hrun (by simp)
    | ok row =>
      rw [h1, ebind_ok] at hrun
      cases h2 : union_nodes_by_index l i row with
      | error e => rw [h2, ebind_err] at hrun; exact absurd hrun (by simp)
      | ok q =>
        rw [h2, ebind_ok] at hrun
        obtain ⟨hpleq, hlenq⟩ := union_nodes_by_index_inv hple h2
        obtain ⟨hple', hlen'⟩ := ih (j + 1) hpleq hrun
        exact ⟨hple', hlen'.trans hlenq⟩

/-- Success inversion for the outer column loop. -/
theorem ufCols_inv {m : CSCBinaryMatrix} :
    ∀ (cnt i : Nat) {l l' : List Nat}, parentLE l →
      ufCols m i cnt l = .ok l' → parentLE l' ∧ l'.length = l.length := by
  intro cnt
  induction cnt with
  | zero =>
    intro i l l' hple hrun
    rw [ufCols] at hrun
    injection hrun with hrun
    rw [← hrun]
    exact ⟨hple, rfl⟩
  | succ cnt ih =>
    intro i l l' hple hrun
    rw [ufCols] at hrun
    cases h1 : rd m.col_ptr i with
    | error e => rw [h1, ebind_err] at hrun; exact absurd hrun (by simp)
    | ok lo =>
      rw [h1, ebind_ok] at hrun
      cases h2 : rd m.col_ptr (i + 1) with
      | error e => rw [h2, ebind_err] at hrun; exact absurd hrun (by simp)
      | ok hi =>
        rw [h2, ebind_ok] at hrun
        cases h3 : ufInner m i lo (hi - lo) l with
        | error e => rw [h3, ebind_err] at hrun; exact absurd hrun (by simp)
        | ok l1 =>
          rw [h3, ebind_ok] at hrun
          obtain ⟨hple1, hlen1⟩ := ufInner_inv (hi - lo) lo hple h3
          obtain ⟨hple', hlen'⟩ := ih (i + 1) hple1 hrun
          exact ⟨hple', hlen'.trans hlen1⟩

/-- The store satisfies `parentLE` at the start of the init loop. -/
theorem parentLE_range (n : Nat) : parentLE (List.range n) := by
  intro i p hp
  have hi : i < n := (List.getElem?_eq_some_iff.mp hp).1.trans_eq (List.length_range n)
  rw [List.getElem?_range hi] at hp
  injection hp with hp
  omega

/-- Root counting before and after the final compression pass always
agrees: path halving preserves the set of self-parented entries.  This
holds for every input, well-formed or not (errors propagate equally), so
the two engine variants are one and the same function. -/
theorem cc_union_find_noFinalPass_eq : cc_union_find_noFinalPass = cc_union_find := by
  funext matrix
  rw [cc_union_find_noFinalPass, cc_union_find]
  cases matrix with
  | none => rfl
  | some m =>
    rw [show deref (some m) = .ok m from rfl, ebind_ok, ebind_ok]
    cases hrun1 : ufCols m 0 m.ncols (List.range m.nrows) with
    | error err => simp only [hrun1, ebind_err]
    | ok l1 =>
      obtain ⟨hple1, hlen1⟩ := ufCols_inv m.ncols 0 (parentLE_range m.nrows) hrun1
      rw [List.length_range] at hlen1
      obtain ⟨l2, hrun2, hpres2, _⟩ := ufFinal_ok m.nrows 0 l1 hple1 (by omega)
      simp only [hrun1, ebind_ok, hrun2]
      rw [countRoots_pres hpres2 (by omega)]

/-! ### Store helpers for the propagation proofs -/

theorem set_getElem_self {l : List Nat} {i : Nat} (h : i < l.length) : l.set i l[i] = l := by
  apply List.ext_getElem?
  intro n
  by_cases hn : i = n
  · subst hn
    rw [List.getElem?_set_self h]
    exact (List.getElem?_eq_some_iff.mpr ⟨h, rfl⟩).symm
  · rw [List.getElem?_set_ne hn]

theorem getD_set_self {l : List Nat} {i v : Nat} (h : i < l.length) :
    (l.set i v).getD i 0 = v := by
  rw [List.getD_eq_getElem?_getD, List.getElem?_set_self h]
  rfl

theorem getD_set_ne {l : List Nat} {i k v : Nat} (h : i ≠ k) :
    (l.set i v).getD k 0 = l.getD k 0 := by
  rw [List.getD_eq_getElem?_getD, List.getElem?_set_ne h, ← List.getD_eq_getElem?_getD]

theorem labelSum_set_lt {l : List Nat} {i v : Nat} (hi : i < l.length) (hv : v < l.getD i 0) :
    labelSum (l.set i v) < labelSum l := by
  unfold labelSum
  have h1 := List.sum_set l i v
  have h2 := List.sum_set l i l[i]
  rw [set_getElem_self hi] at h2
  rw [List.getD_eq_getElem l 0 hi] at hv
  rw [if_pos hi] at h1 h2
  omega

theorem ptwLE_refl (l : List Nat) : ptwLE l l := ⟨Eq.refl _, fun _ => le_refl _⟩

theorem ptwLE_trans {l1 l2 l3 : List Nat} (h12 : ptwLE l1 l2) (h23 : ptwLE l2 l3) :
    ptwLE l1 l3 :=
  ⟨h12.1.trans h23.1, fun k => (h12.2 k).trans (h23.2 k)⟩

theorem ptwLE_set {l : List Nat} {i v : Nat} (hv : v ≤ l.getD i 0) :
    ptwLE (l.set i v) l := by
  refine ⟨List.length_set l i v, ?_⟩
  intro k
  by_cases hk : i = k
  · subst hk
    rcases Nat.lt_or_ge i l.length with hlen | hlen
    · rw [getD_set_self hlen]
      exact hv
    · rw [List.set_eq_of_length_le hlen]
  · rw [getD_set_ne hk]

theorem LPInv_init (m : CSCBinaryMatrix) : LPInv m (List.range m.nrows) := by
  refine ⟨List.length_range m.nrows, ?_⟩
  intro k hk
  have hget : (List.range m.nrows).getD k 0 = k := by
    rw [List.getD_eq_getElem?_getD, List.getElem?_range hk]
    rfl
  rw [hget]
  exact ⟨hk, le_refl k, Relation.ReflTransGen.refl⟩

/-- The stored pair of position `k` of column `c` is an edge of the
list. -/
theorem mem_edgeList {m : CSCBinaryMatrix} {c k : Nat} (hc : c < m.ncols)
    (hk1 : m.col_ptr.getD c 0 ≤ k) (hk2 : k < m.col_ptr.getD (c + 1) 0) :
    (m.row_idx.getD k 0, c) ∈ edgeList m := by
  rw [edgeList, List.mem_flatMap]
  refine ⟨c, List.mem_range.mpr hc, ?_⟩
  rw [colEdges, List.mem_map]
  refine ⟨k - m.col_ptr.getD c 0, List.mem_range.mpr (by omega), ?_⟩
  have : m.col_ptr.getD c 0 + (k - m.col_ptr.getD c 0) = k := by omega
  rw [this]

/-- The edge between column `c` and the row stored at position `k`, as a
reachability fact. -/
theorem conn_edge {m : CSCBinaryMatrix} {c k : Nat} (hc : c < m.ncols)
    (hk1 : m.col_ptr.getD c 0 ≤ k) (hk2 : k < m.col_ptr.getD (c + 1) 0) :
    connList (edgeList m) c (m.row_idx.getD k 0) :=
  Relation.ReflTransGen.single (Or.inr (mem_edgeList hc hk1 hk2))

/-- Full behavior of the inner propagation loop on one column: the
invariant and the cache stay intact, labels only decrease, the label sum
strictly drops whenever the `finished` flag is cleared, and a run that
leaves the flag set changed nothing and certifies that every edge of the
processed range already has equal labels. -/
theorem lpInner_ok {m : CSCBinaryMatrix} (hwf : WF m) {i : Nat} (hi : i < m.ncols) :
    ∀ (cnt j cl : Nat) (l : List Nat) (fin : Bool),
      LPInv m l → cl = l.getD i 0 →
      m.col_ptr.getD i 0 ≤ j → j + cnt ≤ m.col_ptr.getD (i + 1) 0 →
      ∃ (l1 : List Nat) (cl1 : Nat) (fin1 : Bool),
        lpInner m i j cnt cl l fin = .ok (l1, cl1, fin1) ∧
        LPInv m l1 ∧ cl1 = l1.getD i 0 ∧ ptwLE l1 l ∧
        ((l1 = l ∧ cl1 = cl ∧ fin1 = fin) ∨ (labelSum l1 < labelSum l ∧ fin1 = false)) ∧
        (fin1 = true →
          ∀ k : Nat, j ≤ k → k < j + cnt → l.getD (m.row_idx.getD k 0) 0 = cl) := by
  intro cnt
  induction cnt with
  | zero =>
    intro j cl l fin hinv hcl _ _
    refine ⟨l, cl, fin, rfl, hinv, hcl, ptwLE_refl l, Or.inl ⟨rfl, rfl, rfl⟩, ?_⟩
    intro _ k hk1 hk2
    omega
  | succ cnt ih =>
    intro j cl l fin hinv hcl hjlo hjhi
    have hn := hinv.1
    have hcp1 : m.col_ptr.getD (i + 1) 0 ≤ m.nnz := hwf.cp_le_nnz (by omega)
    have hj : j < m.row_idx.length := by rw [hwf.ri_len]; omega
    have hrow_lt : m.row_idx[j] < m.nrows := hwf.rows_lt _ (List.getElem_mem hj)
    have hrowD : m.row_idx.getD j 0 = m.row_idx[j] := List.getD_eq_getElem _ 0 hj
    have hrow_len : m.row_idx[j] < l.length := by omega
    have him : i < m.nrows := by have := hwf.cols_le; omega
    have hil : i < l.length := by omega
    have hrl : l[m.row_idx[j]] = l.getD (m.row_idx[j]) 0 :=
      (List.getD_eq_getElem l 0 hrow_len).symm
    have hconn_i_row : connList (edgeList m) i m.row_idx[j] := by
      rw [← hrowD]
      exact conn_edge hi hjlo (by omega)
    rw [lpInner, rd_of_lt hj, ebind_ok, rd_of_lt hrow_len, ebind_ok]
    by_cases hceq : cl = l[m.row_idx[j]]
    · rw [if_pos hceq]
      obtain ⟨l1, cl1, fin1, hrun, hinv1, hcl1, hptw, hdisj, hfix⟩ :=
        ih (j + 1) cl l fin hinv hcl (by omega) (by omega)
      refine ⟨l1, cl1, fin1, hrun, hinv1, hcl1, hptw, hdisj, ?_⟩
      intro hf k hk1 hk2
      rcases Nat.eq_or_lt_of_le hk1 with hkj | hkj
      · rw [← hkj, hrowD, ← hrl]
        exact hceq.symm
      · exact hfix hf k (by omega) (by omega)
    · rw [if_neg hceq]
      by_cases hclt : cl < l[m.row_idx[j]]
      · have hirf : ¬ (cl > cl) := lt_irrefl cl
        simp only [if_pos hclt, gt_iff_lt, lt_irrefl, if_false, if_pos hclt]
        have hwr : wr l m.row_idx[j] cl = .ok (l.set m.row_idx[j] cl) :=
          wr_ok_iff.mpr ⟨hrow_len, rfl⟩
        rw [hwr, ebind_ok]
        have hrowne : m.row_idx[j] ≠ i := by
          intro hcon
          apply hceq
          rw [hrl, hcon, ← hcl]
        have hcltD : cl < l.getD m.row_idx[j] 0 := by
          rw [← hrl]
          exact hclt
        have hi_val := hinv.2 i him
        have hrow_val := hinv.2 m.row_idx[j] hrow_lt
        have hclN : cl < m.nrows := by
          have := hi_val.1
          omega
        have hinv2 : LPInv m (l.set m.row_idx[j] cl) := by
          refine ⟨by rw [List.length_set]; exact hn, ?_⟩
          intro k hk
          by_cases hkr : m.row_idx[j] = k
          · subst hkr
            rw [getD_set_self hrow_len]
            refine ⟨hclN, by have := hrow_val.2.1; omega, ?_⟩
            exact Relation.ReflTransGen.trans (connList_symm hconn_i_row)
              (by rw [hcl]; exact hi_val.2.2)
          · rw [getD_set_ne hkr]
            exact hinv.2 k hk
        have hcl2 : cl = (l.set m.row_idx[j] cl).getD i 0 := by
          rw [getD_set_ne hrowne]
          exact hcl
        have hsum2 : labelSum (l.set m.row_idx[j] cl) < labelSum l :=
          labelSum_set_lt hrow_len hcltD
        obtain ⟨l1, cl1, fin1, hrun, hinv1, hcl1, hptw, hdisj, _⟩ :=
          ih (j + 1) cl (l.set m.row_idx[j] cl) false hinv2 hcl2 (by omega) (by omega)
        refine ⟨l1, cl1, fin1, hrun, hinv1, hcl1,
          ptwLE_trans hptw (ptwLE_set (le_of_lt hcltD)), ?_, ?_⟩
        · right
          constructor
          · rcases hdisj with ⟨heq, _, _⟩ | ⟨hlt, _⟩
            · rw [heq]
              exact hsum2
            · omega
          · rcases hdisj with ⟨_, _, hf⟩ | ⟨_, hf⟩ <;> exact hf
        · intro hf
          have hfin1 : fin1 = false := by
            rcases hdisj with ⟨_, _, hf'⟩ | ⟨_, hf'⟩ <;> exact hf'
          rw [hfin1] at hf
          exact absurd hf (by simp)
      · have hgt : l[m.row_idx[j]] < cl := by omega
        simp only [if_neg hclt, gt_iff_lt, if_pos hgt, lt_irrefl, if_false]
        have hwr : wr l i l[m.row_idx[j]] = .ok (l.set i l[m.row_idx[j]]) :=
          wr_ok_iff.mpr ⟨hil, rfl⟩
        rw [hwr, ebind_ok]
        have hi_val := hinv.2 i him
        have hrow_val := hinv.2 m.row_idx[j] hrow_lt
        have hgtD : l.getD m.row_idx[j] 0 < l.getD i 0 := by
          rw [← hrl, ← hcl]
          exact hgt
        have hinv2 : LPInv m (l.set i l[m.row_idx[j]]) := by
          refine ⟨by rw [List.length_set]; exact hn, ?_⟩
          intro k hk
          by_cases hki : i = k
          · subst hki
            rw [getD_set_self hil, hrl]
            refine ⟨hrow_val.1, by have := hi_val.2.1; omega, ?_⟩
            exact Relation.ReflTransGen.trans hconn_i_row hrow_val.2.2
          · rw [getD_set_ne hki]
            exact hinv.2 k hk
        have hcl2 : l[m.row_idx[j]] = (l.set i l[m.row_idx[j]]).getD i 0 :=
          (getD_set_self hil).symm
        have hsum2 : labelSum (l.set i l[m.row_idx[j]]) < labelSum l :=
          labelSum_set_lt hil (by rw [← hcl]; exact hgt)
        obtain ⟨l1, cl1, fin1, hrun, hinv1, hcl1, hptw, hdisj, _⟩ :=
          ih (j + 1) l[m.row_idx[j]] (l.set i l[m.row_idx[j]]) false hinv2 hcl2
            (by omega) (by omega)
        refine ⟨l1, cl1, fin1, hrun, hinv1, hcl1,
          ptwLE_trans hptw (ptwLE_set (by rw [← hcl]; exact le_of_lt hgt)), ?_, ?_⟩
        · right
          constructor
          · rcases hdisj with ⟨heq, _, _⟩ | ⟨hlt, _⟩
            · rw [heq]
              exact hsum2
            · omega
          · rcases hdisj with ⟨_, _, hf⟩ | ⟨_, hf⟩ <;> exact hf
        · intro hf
          have hfin1 : fin1 = false := by
            rcases hdisj with ⟨_, _, hf'⟩ | ⟨_, hf'⟩ <;> exact hf'
          rw [hfin1] at hf
          exact absurd hf (by simp)

/-- One full pass: invariant kept, labels only decrease, the sum drops
whenever the flag is cleared, and a pass that leaves the flag set
changed nothing and certifies equal labels across every stored edge. -/
theorem lpPass_ok {m : CSCBinaryMatrix} (hwf : WF m) :
    ∀ (cnt i : Nat) (l : List Nat) (fin : Bool),
      LPInv m l → i + cnt ≤ m.ncols →
      ∃ (l1 : List Nat) (fin1 : Bool),
        lpPass m i cnt l fin = .ok (l1, fin1) ∧
        LPInv m l1 ∧ ptwLE l1 l ∧
        ((l1 = l ∧ fin1 = fin) ∨ (labelSum l1 < labelSum l ∧ fin1 = false)) ∧
        (fin1 = true →
          ∀ c : Nat, i ≤ c → c < i + cnt →
            ∀ k : Nat, m.col_ptr.getD c 0 ≤ k → k < m.col_ptr.getD (c + 1) 0 →
              l.getD (m.row_idx.getD k 0) 0 = l.getD c 0) := by
  intro cnt
  induction cnt with
  | zero =>
    intro i l fin hinv _
    refine ⟨l, fin, rfl, hinv, ptwLE_refl l, Or.inl ⟨rfl, rfl⟩, ?_⟩
    intro _ c hc1 hc2
    omega
  | succ cnt ih =>
    intro i l fin hinv hle
    have hn := hinv.1
    have hcpl : m.col_ptr.length = m.ncols + 1 := hwf.cp_len
    have hil : i < l.length := by
      have := hwf.cols_le
      omega
    have hicp : i < m.col_ptr.length := by omega
    have hicp1 : i + 1 < m.col_ptr.length := by omega
    rw [lpPass, rd_of_lt hil, ebind_ok, rd_of_lt hicp, ebind_ok, rd_of_lt hicp1, ebind_ok]
    have hgdi : m.col_ptr[i] = m.col_ptr.getD i 0 := (List.getD_eq_getElem _ 0 hicp).symm
    have hgdi1 : m.col_ptr[i + 1] = m.col_ptr.getD (i + 1) 0 :=
      (List.getD_eq_getElem _ 0 hicp1).symm
    have hcli : l[i] = l.getD i 0 := (List.getD_eq_getElem l 0 hil).symm
    obtain ⟨l1, cl1, fin1, hrun1, hinv1, hcl1, hptw1, hdisj1, hfix1⟩ :=
      lpInner_ok hwf (show i < m.ncols by omega) (m.col_ptr[i + 1] - m.col_ptr[i])
        m.col_ptr[i] l[i] l fin hinv hcli (by rw [hgdi]) (by
          rw [hgdi, hgdi1]
          have := hwf.mono i (by omega)
          omega)
    rw [hrun1, ebind_ok]
    obtain ⟨l2, fin2, hrun2, hinv2, hptw2, hdisj2, hfix2⟩ := ih (i + 1) l1 fin1 hinv1 (by omega)
    refine ⟨l2, fin2, hrun2, hinv2, ptwLE_trans hptw2 hptw1, ?_, ?_⟩
    · rcases hdisj1 with ⟨hl1, hcl1', hf1⟩ | ⟨hs1, hf1⟩
      · subst hl1
        rcases hdisj2 with ⟨hl2, hf2⟩ | ⟨hs2, hf2⟩
        · exact Or.inl ⟨hl2, by rw [hf2, hf1]⟩
        · exact Or.inr ⟨hs2, hf2⟩
      · rcases hdisj2 with ⟨hl2, hf2⟩ | ⟨hs2, hf2⟩
        · subst hl2
          exact Or.inr ⟨hs1, by rw [hf2, hf1]⟩
        · exact Or.inr ⟨by omega, hf2⟩
    · intro hf c hc1 hc2 k hk1 hk2
      have hfin1 : fin1 = true := by
        rcases hdisj2 with ⟨_, hf2⟩ | ⟨_, hf2⟩
        · rw [← hf2]
          exact hf
        · rw [hf2] at hf
          exact absurd hf (by simp)
      have hl1l : l1 = l := by
        rcases hdisj1 with ⟨hl1, _, _⟩ | ⟨_, hf1⟩
        · exact hl1
        · rw [hfin1] at hf1
          exact absurd hf1.symm (by simp)
      rcases Nat.eq_or_lt_of_le hc1 with hci | hci
      · subst hci
        rw [← hcli]
        refine hfix1 hfin1 k ?_ ?_
        · rwa [hgdi]
        · have hk2' := hk2
          rw [← hgdi1] at hk2'
          omega
      · have := hfix2 hf c (by omega) (by omega) k hk1 hk2
        rwa [hl1l] at this

/-- The convergence loop terminates within `labelSum l + 1` passes and
returns a fixed point: a store on which every stored edge connects two
nodes with equal labels. -/
theorem lpLoop_ok {m : CSCBinaryMatrix} (hwf : WF m) :
    ∀ (fuel : Nat) (l : List Nat), LPInv m l → labelSum l + 1 ≤ fuel →
      ∃ l1 : List Nat, lpLoop m fuel l = .ok l1 ∧ LPInv m l1 ∧ ptwLE l1 l ∧
        (∀ c : Nat, c < m.ncols →
          ∀ k : Nat, m.col_ptr.getD c 0 ≤ k → k < m.col_ptr.getD (c + 1) 0 →
            l1.getD (m.row_idx.getD k 0) 0 = l1.getD c 0) := by
  intro fuel
  induction fuel with
  | zero =>
    intro l _ hf
    omega
  | succ fuel ih =>
    intro l hinv hfuel
    obtain ⟨l1, fin1, hrun1, hinv1, hptw1, hdisj1, hfix1⟩ :=
      lpPass_ok hwf m.ncols 0 l true hinv (by omega)
    rw [lpLoop, hrun1, ebind_ok]
    cases fin1 with
    | true =>
      have hl1l : l1 = l := by
        rcases hdisj1 with ⟨hl1, _⟩ | ⟨_, hf1⟩
        · exact hl1
        · exact absurd hf1 (by simp)
      refine ⟨l1, rfl, hinv1, hptw1, ?_⟩
      intro c hc k hk1 hk2
      have := hfix1 rfl c (by omega) (by omega) k hk1 hk2
      rwa [hl1l]
    | false =>
      have hsum1 : labelSum l1 < labelSum l := by
        rcases hdisj1 with ⟨_, hf1⟩ | ⟨hs1, _⟩
        · exact absurd hf1.symm (by simp)
        · exact hs1
      obtain ⟨l2, hrun2, hinv2, hptw2, hfix2⟩ := ih l1 hinv1 (by omega)
      exact ⟨l2, hrun2, hinv2, ptwLE_trans hptw2 hptw1, hfix2⟩

/-- At a fixed point of the pass, labels agree across every listed edge. -/
theorem edge_labels_eq {m : CSCBinaryMatrix} {l : List Nat}
    (hfix : ∀ c : Nat, c < m.ncols →
      ∀ k : Nat, m.col_ptr.getD c 0 ≤ k → k < m.col_ptr.getD (c + 1) 0 →
        l.getD (m.row_idx.getD k 0) 0 = l.getD c 0) :
    ∀ e ∈ edgeList m, l.getD e.1 0 = l.getD e.2 0 := by
  intro e he
  rw [edgeList, List.mem_flatMap] at he
  obtain ⟨c, hc, hece⟩ := he
  rw [List.mem_range] at hc
  rw [colEdges, List.mem_map] at hece
  obtain ⟨k, hk, rfl⟩ := hece
  rw [List.mem_range] at hk
  exact hfix c hc (m.col_ptr.getD c 0 + k) (by omega) (by omega)

/-- Labels that agree across every edge are constant on reachability
classes. -/
theorem conn_label_eq {es : List (Nat × Nat)} {l : List Nat}
    (hedge : ∀ e ∈ es, l.getD e.1 0 = l.getD e.2 0) {x y : Nat}
    (hconn : connList es x y) : l.getD x 0 = l.getD y 0 := by
  induction hconn with
  | refl => rfl
  | tail hxc hstep ihc =>
    rcases hstep with hm | hm
    · exact ihc.trans (hedge _ hm)
    · exact ihc.trans (hedge _ hm).symm

/-- At the fixed point each label is the least node of its class: the set
of label values is exactly the set of class minima. -/
theorem lp_image_iff {m : CSCBinaryMatrix} {l : List Nat}
    (hinv : LPInv m l)
    (hedge : ∀ e ∈ edgeList m, l.getD e.1 0 = l.getD e.2 0) (v : Nat) :
    (∃ x : Nat, x < m.nrows ∧ l.getD x 0 = v) ↔
      (v < m.nrows ∧ ∀ j : Nat, j < v → ¬ connList (edgeList m) v j) := by
  constructor
  · rintro ⟨x, hx, rfl⟩
    obtain ⟨hlt, hle, hconn⟩ := hinv.2 x hx
    refine ⟨hlt, ?_⟩
    intro j hj hconnj
    have hxj : connList (edgeList m) x j := hconn.trans hconnj
    have hxv : l.getD x 0 = l.getD j 0 := conn_label_eq hedge hxj
    have hjlt : j < m.nrows := by omega
    have := (hinv.2 j hjlt).2.1
    omega
  · rintro ⟨hv, hmin⟩
    refine ⟨v, hv, ?_⟩
    obtain ⟨hlt, hle, hconn⟩ := hinv.2 v hv
    by_contra hne
    have hlv : l.getD v 0 < v := by omega
    exact hmin (l.getD v 0) hlv hconn

/-! ### Counting distinct labels through the bitmap -/

theorem countP_range_card (n : Nat) (p : Nat → Bool) :
    (List.range n).countP p = ((Finset.range n).filter (fun b => p b = true)).card := by
  rw [Finset.card_filter]
  induction n with
  | zero => simp
  | succ n ih =>
    rw [List.range_succ, List.countP_append, Finset.sum_range_succ, ih]
    simp [List.countP_cons]

theorem popcountll_card (x : Nat) :
    popcountll x = ((Finset.range 64).filter (fun b => x.testBit b = true)).card := by
  rw [popcountll, ← List.countP_eq_length_filter, countP_range_card]

/-- Behavior of the bitmap construction loop: afterwards, bit `64*w + b`
is set iff some already-processed node carries that label value. -/
theorem bmBuild_ok {label : List Nat} {n size : Nat}
    (hlen : label.length = n) (hvals : ∀ k : Nat, k < n → label.getD k 0 < n)
    (hsize : n ≤ 64 * size) :
    ∀ (cnt i : Nat) (bitmap : List Nat), bitmap.length = size → i + cnt = n →
      (∀ w : Nat, w < size → ∀ b : Nat, b < 64 →
        ((bitmap.getD w 0).testBit b ↔ ∃ x : Nat, x < i ∧ label.getD x 0 = 64 * w + b)) →
      ∃ bitmap' : List Nat, bmBuild i cnt label bitmap = .ok bitmap' ∧
        bitmap'.length = size ∧
        (∀ w : Nat, w < size → ∀ b : Nat, b < 64 →
          ((bitmap'.getD w 0).testBit b ↔ ∃ x : Nat, x < n ∧ label.getD x 0 = 64 * w + b)) := by
  intro cnt
  induction cnt with
  | zero =>
    intro i bitmap hblen hin hchar
    refine ⟨bitmap, rfl, hblen, ?_⟩
    intro w hw b hb
    rw [hchar w hw b hb, ← hin]
    constructor
    · rintro ⟨x, hx, hval⟩
      exact ⟨x, by omega, hval⟩
    · rintro ⟨x, hx, hval⟩
      exact ⟨x, by omega, hval⟩
  | succ cnt ih =>
    intro i bitmap hblen hin hchar
    have hiln : i < n := by omega
    have hilab : i < label.length := by omega
    have hval := hvals i hiln
    have hgd : label[i] = label.getD i 0 := (List.getD_eq_getElem label 0 hilab).symm
    have hw0 : label.getD i 0 / 64 < size := by omega
    have hw0b : label.getD i 0 / 64 < bitmap.length := by omega
    rw [bmBuild, rd_of_lt hilab, ebind_ok, hgd, rd_of_lt hw0b, ebind_ok]
    have hwr : wr bitmap (label.getD i 0 / 64)
        (bitmap[label.getD i 0 / 64] ||| (1 <<< (label.getD i 0 % 64))) =
        .ok (bitmap.set (label.getD i 0 / 64)
          (bitmap[label.getD i 0 / 64] ||| (1 <<< (label.getD i 0 % 64)))) :=
      wr_ok_iff.mpr ⟨hw0b, rfl⟩
    rw [hwr, ebind_ok]
    have hbgd : bitmap[label.getD i 0 / 64] = bitmap.getD (label.getD i 0 / 64) 0 :=
      (List.getD_eq_getElem bitmap 0 hw0b).symm
    refine ih (i + 1) _ (by rw [List.length_set]; exact hblen) (by omega) ?_
    intro w hw b hb
    by_cases hweq : label.getD i 0 / 64 = w
    · rw [← hweq, getD_set_self hw0b, hbgd, Nat.testBit_or, Nat.one_shiftLeft,
        Nat.testBit_two_pow]
      rw [Bool.or_eq_true, decide_eq_true_eq]
      constructor
      · rintro (hold | hnew)
        · obtain ⟨x, hx, hvx⟩ := (hchar _ hw0 b hb).mp hold
          exact ⟨x, by omega, hvx⟩
        · exact ⟨i, by omega, by omega⟩
      · rintro ⟨x, hx, hvx⟩
        rcases Nat.lt_or_ge x i with hxi | hxi
        · exact Or.inl ((hchar _ hw0 b hb).mpr ⟨x, hxi, hvx⟩)
        · have hxe : x = i := by omega
          subst hxe
          right
          omega
    · rw [getD_set_ne hweq, hchar w hw b hb]
      constructor
      · rintro ⟨x, hx, hvx⟩
        exact ⟨x, by omega, hvx⟩
      · rintro ⟨x, hx, hvx⟩
        rcases Nat.lt_or_ge x i with hxi | hxi
        · exact ⟨x, hxi, hvx⟩
        · have hxe : x = i := by omega
          rw [hxe] at hvx
          exact absurd (by omega : label.getD i 0 / 64 = w) hweq

theorem map_sum_range (f : Nat → Nat) :
    ∀ l : List Nat, (l.map f).sum = ∑ w ∈ Finset.range l.length, f (l.getD w 0) := by
  intro l
  induction l with
  | nil => simp
  | cons a l ih =>
    rw [List.map_cons, List.sum_cons, ih, List.length_cons, Finset.sum_range_succ']
    simp [List.getD_cons_succ, List.getD_cons_zero, Nat.add_comm]

/-- The popcount reduction of a bitmap whose bits describe membership in
`S` counts exactly `S`. -/
theorem bmCount_card {bitmap : List Nat} {n : Nat} (S : Finset Nat)
    (hS : S ⊆ Finset.range n) (hsize : n ≤ 64 * bitmap.length)
    (hchar : ∀ w : Nat, w < bitmap.length → ∀ b : Nat, b < 64 →
      ((bitmap.getD w 0).testBit b ↔ 64 * w + b ∈ S)) :
    bmCount bitmap = S.card := by
  rw [bmCount, map_sum_range]
  have hfiber : ∀ x ∈ S, x / 64 ∈ Finset.range bitmap.length := by
    intro x hx
    have := Finset.mem_range.mp (hS hx)
    rw [Finset.mem_range]
    omega
  rw [Finset.card_eq_sum_card_fiberwise hfiber]
  apply Finset.sum_congr rfl
  intro w hw
  rw [Finset.mem_range] at hw
  rw [popcountll_card]
  symm
  apply Finset.card_bij (fun v _ => v % 64)
  · intro v hv
    rw [Finset.mem_filter] at hv
    obtain ⟨hvS, hvw⟩ := hv
    rw [Finset.mem_filter, Finset.mem_range]
    have hb : v % 64 < 64 := Nat.mod_lt v (by omega)
    refine ⟨hb, ?_⟩
    rw [hchar w hw (v % 64) hb]
    have : 64 * w + v % 64 = v := by omega
    rw [this]
    exact hvS
  · intro v1 hv1 v2 hv2 heq
    rw [Finset.mem_filter] at hv1 hv2
    have h1 := hv1.2
    have h2 := hv2.2
    omega
  · intro b hb
    rw [Finset.mem_filter, Finset.mem_range] at hb
    obtain ⟨hb64, hbit⟩ := hb
    rw [hchar w hw b hb64] at hbit
    refine ⟨64 * w + b, ?_, by omega⟩
    rw [Finset.mem_filter]
    exact ⟨hbit, by omega⟩

/-- The sequential label propagation returns the reference component
count on every well-formed adjacency (with its two allocations). -/
theorem cc_label_propagation_eq {m : CSCBinaryMatrix} (hwf : WF m) :
    cc_label_propagation (some m) = .ok ((numComponents m : Int), 2) := by
  obtain ⟨l1, hrun1, hinv1, hptw1, hfix1⟩ :=
    lpLoop_ok hwf (labelSum (List.range m.nrows) + 1) (List.range m.nrows)
      (LPInv_init m) (le_refl _)
  have hedge := edge_labels_eq hfix1
  have hsize : m.nrows ≤ 64 * ((m.nrows + 63) / 64) := by omega
  have hrep_len : (List.replicate ((m.nrows + 63) / 64) 0).length = (m.nrows + 63) / 64 :=
    List.length_replicate _ _
  obtain ⟨bm, hbm, hbmlen, hbmchar⟩ := bmBuild_ok hinv1.1 (fun k hk => (hinv1.2 k hk).1)
    hsize m.nrows 0 (List.replicate ((m.nrows + 63) / 64) 0) hrep_len (by omega) (by
      intro w hw b hb
      have hz : (List.replicate ((m.nrows + 63) / 64) 0).getD w 0 = 0 := by
        rw [List.getD_eq_getElem?_getD, List.getElem?_replicate]
        split <;> rfl
      rw [hz]
      simp [Nat.testBit, Nat.zero_shiftRight])
  have hSsub : (Finset.range m.nrows).image (fun x => l1.getD x 0) ⊆ Finset.range m.nrows := by
    intro v hv
    rw [Finset.mem_image] at hv
    obtain ⟨x, hx, rfl⟩ := hv
    rw [Finset.mem_range] at hx
    rw [Finset.mem_range]
    exact (hinv1.2 x hx).1
  have hchar' : ∀ w : Nat, w < bm.length → ∀ b : Nat, b < 64 →
      ((bm.getD w 0).testBit b ↔
        64 * w + b ∈ (Finset.range m.nrows).image (fun x => l1.getD x 0)) := by
    intro w hw b hb
    rw [hbmlen] at hw
    rw [hbmchar w hw b hb]
    constructor
    · rintro ⟨x, hx, hvx⟩
      rw [Finset.mem_image]
      exact ⟨x, Finset.mem_range.mpr hx, hvx⟩
    · intro hmem
      rw [Finset.mem_image] at hmem
      obtain ⟨x, hx, hvx⟩ := hmem
      exact ⟨x, Finset.mem_range.mp hx, hvx⟩
  have hcount : bmCount bm = ((Finset.range m.nrows).image (fun x => l1.getD x 0)).card :=
    bmCount_card _ hSsub (by rw [hbmlen]; exact hsize) hchar'
  have hSeq : (Finset.range m.nrows).image (fun x => l1.getD x 0) =
      (Finset.range m.nrows).filter
        (fun v => ((List.range v).all (fun j => !(connB (edgeList m) m.nrows v j))) = true) := by
    apply Finset.ext
    intro v
    rw [Finset.mem_image, Finset.mem_filter, Finset.mem_range]
    have himg := lp_image_iff hinv1 hedge v
    constructor
    · rintro ⟨x, hx, hvx⟩
      rw [Finset.mem_range] at hx
      obtain ⟨hvn, hmin⟩ := himg.mp ⟨x, hx, hvx⟩
      refine ⟨hvn, ?_⟩
      rw [List.all_eq_true]
      intro j hj
      rw [List.mem_range] at hj
      rw [Bool.not_eq_eq_eq_not, Bool.not_true]
      rcases hb : connB (edgeList m) m.nrows v j with _ | _
      · rfl
      · exact absurd ((connB_iff (edgeList_bounded hwf) hvn).mp hb) (hmin j hj)
    · rintro ⟨hvn, hall⟩
      rw [List.all_eq_true] at hall
      have hmin : ∀ j : Nat, j < v → ¬ connList (edgeList m) v j := by
        intro j hj hconn
        have hjj := hall j (List.mem_range.mpr hj)
        rw [Bool.not_eq_eq_eq_not, Bool.not_true,
          (connB_iff (edgeList_bounded hwf) hvn).mpr hconn] at hjj
        exact absurd hjj (by simp)
      obtain ⟨x, hx, hvx⟩ := himg.mpr ⟨hvn, hmin⟩
      exact ⟨x, Finset.mem_range.mpr hx, hvx⟩
  have hnum : numComponents m = bmCount bm := by
    rw [numComponents, countP_range_card, hcount, hSeq]
  rw [cc_label_propagation, show deref (some m) = .ok m from rfl, ebind_ok]
  simp only [hrun1, ebind_ok, hbm]
  rw [hnum]

/-- On a store whose column already has equal labels across its edges,
the inner loop is a no-op. -/
theorem lpInner_fixed {m : CSCBinaryMatrix} (hwf : WF m) {i : Nat} (hi : i < m.ncols)
    {l : List Nat} (hlen : l.length = m.nrows)
    (hedge : ∀ k : Nat, m.col_ptr.getD i 0 ≤ k → k < m.col_ptr.getD (i + 1) 0 →
      l.getD (m.row_idx.getD k 0) 0 = l.getD i 0) :
    ∀ (cnt j : Nat) (fin : Bool), m.col_ptr.getD i 0 ≤ j →
      j + cnt ≤ m.col_ptr.getD (i + 1) 0 →
      lpInner m i j cnt (l.getD i 0) l fin = .ok (l, l.getD i 0, fin) := by
  intro cnt
  induction cnt with
  | zero =>
    intro j fin _ _
    rfl
  | succ cnt ih =>
    intro j fin hjlo hjhi
    have hcp1 : m.col_ptr.getD (i + 1) 0 ≤ m.nnz := hwf.cp_le_nnz (by omega)
    have hj : j < m.row_idx.length := by rw [hwf.ri_len]; omega
    have hrow_lt : m.row_idx[j] < m.nrows := hwf.rows_lt _ (List.getElem_mem hj)
    have hrow_len : m.row_idx[j] < l.length := by omega
    have hrowD : m.row_idx.getD j 0 = m.row_idx[j] := List.getD_eq_getElem _ 0 hj
    rw [lpInner, rd_of_lt hj, ebind_ok, rd_of_lt hrow_len, ebind_ok]
    have heq : l.getD i 0 = l[m.row_idx[j]] := by
      have h1 : l[m.row_idx[j]] = l.getD m.row_idx[j] 0 :=
        (List.getD_eq_getElem l 0 hrow_len).symm
      rw [h1, ← hrowD]
      exact (hedge j hjlo (by omega)).symm
    rw [if_pos heq]
    exact ih (j + 1) fin (by omega) (by omega)

/-- A store with equal labels across every stored edge is a fixed point
of the whole pass. -/
theorem lpPass_fixed {m : CSCBinaryMatrix} (hwf : WF m) {l : List Nat}
    (hlen : l.length = m.nrows)
    (hedge : ∀ c : Nat, c < m.ncols →
      ∀ k : Nat, m.col_ptr.getD c 0 ≤ k → k < m.col_ptr.getD (c + 1) 0 →
        l.getD (m.row_idx.getD k 0) 0 = l.getD c 0) :
    ∀ (cnt i : Nat) (fin : Bool), i + cnt ≤ m.ncols →
      lpPass m i cnt l fin = .ok (l, fin) := by
  intro cnt
  induction cnt with
  | zero =>
    intro i fin _
    rfl
  | succ cnt ih =>
    intro i fin hle
    have hcpl : m.col_ptr.length = m.ncols + 1 := hwf.cp_len
    have hil : i < l.length := by
      have := hwf.cols_le
      omega
    have hicp : i < m.col_ptr.length := by omega
    have hicp1 : i + 1 < m.col_ptr.length := by omega
    rw [lpPass, rd_of_lt hil, ebind_ok, rd_of_lt hicp, ebind_ok, rd_of_lt hicp1, ebind_ok]
    have hcli : l[i] = l.getD i 0 := (List.getD_eq_getElem l 0 hil).symm
    have hgdi : m.col_ptr[i] = m.col_ptr.getD i 0 := (List.getD_eq_getElem _ 0 hicp).symm
    have hgdi1 : m.col_ptr[i + 1] = m.col_ptr.getD (i + 1) 0 :=
      (List.getD_eq_getElem _ 0 hicp1).symm
    have hinner := lpInner_fixed hwf (show i < m.ncols by omega) hlen (hedge i (by omega))
      (m.col_ptr[i + 1] - m.col_ptr[i]) m.col_ptr[i] fin (by rw [hgdi]) (by
        rw [hgdi, hgdi1]
        have := hwf.mono i (by omega)
        omega)
    rw [hcli, hinner, ebind_ok]
    exact ih (i + 1) fin (by omega)

/-! ### Correctness of the shared Rem-style union under one worker -/

theorem ebind_pure {α : Type} (e : Except CErr α) : (e >>= fun a => Except.ok a) = e := by
  cases e with
  | error err => rw [ebind_err]
  | ok a => rw [ebind_ok]

/-- Claim C1 (confirmed): on every well-formed adjacency (checked by
`wfChk`: `col_ptr` of length `ncols + 1`, non-decreasing from 0 to
`nnz`, row indices below `nrows`, and the column indices used as nodes
also below `nrows`), the sequential union-find engine (variant 1)
returns exactly the reference number of connected components
`numComponents`, the number of maximal sets of pairwise-reachable nodes
of the stored edges. -/
theorem claim_C1 (m : CSCBinaryMatrix) (n_threads : Nat) (h : wfChk m = true) :
    cc_sequential (some m) n_threads 1 = .ok ((numComponents m : Int), 1) :=
  cc_union_find_eq (wfChk_iff.mp h)

/-- Witness for C1 at the sample adjacency. -/
theorem claim_C1_witness :
    cc_sequential (some exampleAdjacency) 1 1 =
      .ok ((numComponents exampleAdjacency : Int), 1) :=
  claim_C1 exampleAdjacency 1 (by decide)

/-- Claim C2 (confirmed): on every well-formed adjacency the sequential
label-propagation engine (variant 0) and the union-find engine
(variant 1) return the same component count (both compute
`numComponents`). -/
theorem claim_C2 (m : CSCBinaryMatrix) (n_threads : Nat) (h : wfChk m = true) :
    (cc_sequential (some m) n_threads 0).map Prod.fst =
      (cc_sequential (some m) n_threads 1).map Prod.fst := by
  have hwf := wfChk_iff.mp h
  show (cc_label_propagation (some m)).map Prod.fst = (cc_union_find (some m)).map Prod.fst
  rw [cc_label_propagation_eq hwf, cc_union_find_eq hwf]
  rfl

/-- Witness for C2 at the sample adjacency. -/
theorem claim_C2_witness :
    (cc_sequential (some exampleAdjacency) 1 0).map Prod.fst =
      (cc_sequential (some exampleAdjacency) 1 1).map Prod.fst :=
  claim_C2 exampleAdjacency 1 (by decide)

/-- Claim C3 (code bug): the spec requires every engine entry point to
bounds-check row indices and skip out-of-range entries.  Only the
OpenMP and Cilk union-finds do (`if (row < n)`); the sequential engines,
both pthreads engines and the OpenMP/Cilk label propagations index the
label array directly with the stored row.  On `badRowAdjacency`
(`nrows = 1`, stored row 7) those six paths read `label[7]` of a 1-entry
array — undefined behavior in C, the explicit out-of-bounds error of
this embedding — while the two guarded engines return normally. -/
theorem claim_C3 :
    cc_sequential (some badRowAdjacency) 1 1 = .error .oob ∧
    cc_sequential (some badRowAdjacency) 1 0 = .error .oob ∧
    cc_pthreads (some badRowAdjacency) 1 1 = .error .oob ∧
    cc_pthreads (some badRowAdjacency) 1 0 = .error .oob ∧
    cc_openmp (some badRowAdjacency) 1 0 = .error .oob ∧
    cc_cilk (some badRowAdjacency) 1 0 = .error .oob ∧
    cc_openmp (some badRowAdjacency) 1 1 = .ok (1, 1) ∧
    cc_cilk (some badRowAdjacency) 1 1 = .ok (1, 1) :=
  ⟨rfl, rfl, rfl, rfl, rfl, rfl, rfl, rfl⟩

/-- Claim C4 (corrected): every entry point does return `-1` without
allocating for an unsupported variant, but a null adjacency is not
uniformly rejected with `-1`: the sequential engines and the
pthreads/OpenMP label propagations dereference the null pointer
(undefined behavior, the explicit null-dereference error here), and the
parallel union-finds and the Cilk label propagation return `0`. -/
theorem claim_C4 (matrix : Option CSCBinaryMatrix) (n_threads v : Nat) (hv : 2 ≤ v) :
    (cc_sequential matrix n_threads v = .ok (-1, 0) ∧
     cc_pthreads matrix n_threads v = .ok (-1, 0) ∧
     cc_openmp matrix n_threads v = .ok (-1, 0) ∧
     cc_cilk matrix n_threads v = .ok (-1, 0)) ∧
    (cc_sequential none n_threads 0 = .error .nullDeref ∧
     cc_sequential none n_threads 1 = .error .nullDeref ∧
     cc_pthreads none n_threads 0 = .error .nullDeref ∧
     cc_openmp none n_threads 0 = .error .nullDeref) ∧
    (cc_pthreads none n_threads 1 = .ok (0, 0) ∧
     cc_openmp none n_threads 1 = .ok (0, 0) ∧
     cc_cilk none n_threads 0 = .ok (0, 0) ∧
     cc_cilk none n_threads 1 = .ok (0, 0)) := by
  obtain ⟨k, rfl⟩ : ∃ k : Nat, v = k + 2 := ⟨v - 2, by omega⟩
  exact ⟨⟨rfl, rfl, rfl, rfl⟩, ⟨rfl, rfl, rfl, rfl⟩, ⟨rfl, rfl, rfl, rfl⟩⟩

/-- Witness for C4 at variant 5. -/
theorem claim_C4_witness :
    cc_sequential (some exampleAdjacency) 1 5 = .ok (-1, 0) ∧
    cc_cilk none 1 5 = .ok (-1, 0) :=
  ⟨((claim_C4 (some exampleAdjacency) 1 5 (by decide)).1).1,
   ((claim_C4 none 1 5 (by decide)).1).2.2.2⟩

/-- Counterexample for C4: on a null adjacency the pthreads union-find
returns `0`, not `-1`. -/
theorem claim_C4_cex :
    cc_pthreads none 1 1 = .ok (0, 0) ∧ (0 : Int) ≠ -1 :=
  ⟨rfl, by decide⟩

/-- Claim C5 (corrected): on the empty adjacency (`nrows = 0`, hence for
a square adjacency `ncols = 0`) every entry point does return count `0`,
but not all without allocating: the sequential union-find mallocs its
(empty) label array, and the sequential, pthreads and OpenMP label
propagations malloc the label array and calloc the bitmap; only the four
engines with an explicit `nrows == 0` early return (the three parallel
union-finds and the Cilk label propagation) allocate nothing.  The
second component counts the allocations. -/
theorem claim_C5 (m : CSCBinaryMatrix) (n_threads : Nat) (hn : m.nrows = 0)
    (hc : m.ncols = 0) :
    cc_sequential (some m) n_threads 1 = .ok (0, 1) ∧
    cc_sequential (some m) n_threads 0 = .ok (0, 2) ∧
    cc_pthreads (some m) n_threads 1 = .ok (0, 0) ∧
    cc_pthreads (some m) n_threads 0 = .ok (0, 2) ∧
    cc_openmp (some m) n_threads 1 = .ok (0, 0) ∧
    cc_openmp (some m) n_threads 0 = .ok (0, 2) ∧
    cc_cilk (some m) n_threads 1 = .ok (0, 0) ∧
    cc_cilk (some m) n_threads 0 = .ok (0, 0) := by
  obtain ⟨nr, nc, nz, cp, ri⟩ := m
  dsimp only at hn hc
  subst hn hc
  refine ⟨rfl, ?_, rfl, ?_, rfl, ?_, rfl, rfl⟩
  · show cc_label_propagation (some ⟨0, 0, nz, cp, ri⟩) = .ok (0, 2)
    simp [cc_label_propagation, deref, ebind_ok, lpLoop, lpPass, bmBuild, bmCount, labelSum]
  · show cc_label_propagation_pthreads (some ⟨0, 0, nz, cp, ri⟩) = .ok (0, 2)
    simp [cc_label_propagation_pthreads, deref, ebind_ok, ptLPLoop, ptLPChunks, bmBuild,
      bmCount, labelSum]
  · show cc_label_propagation_openmp (some ⟨0, 0, nz, cp, ri⟩) = .ok (0, 2)
    simp [cc_label_propagation_openmp, deref, ebind_ok, omLPLoop, omLPCols, bmBuild,
      bmCount, labelSum]

/-- Witness for C5 at the empty adjacency. -/
theorem claim_C5_witness :
    cc_sequential (some emptyAdjacency) 1 1 = .ok (0, 1) ∧
    cc_pthreads (some emptyAdjacency) 1 1 = .ok (0, 0) :=
  ⟨(claim_C5 emptyAdjacency 1 rfl rfl).1, (claim_C5 emptyAdjacency 1 rfl rfl).2.2.1⟩

/-- Counterexample for C5: the sequential union-find performs its malloc
(one allocation) even for `nrows = 0`. -/
theorem claim_C5_cex :
    cc_sequential (some emptyAdjacency) 1 1 = .ok (0, 1) ∧ (1 : Nat) ≠ 0 :=
  ⟨rfl, by decide⟩

/-- Claim C6 (confirmed): the sequential label-propagation loop
terminates.  Every pass keeps labels pointwise non-increasing (`ptwLE`,
with 0 as the trivial lower bound of the naturals) and either strictly
decreases the label sum with the `finished` flag cleared or changes
nothing; and the engine's own do-while run reaches its fixed point: the
returned store is reproduced unchanged by one more pass. -/
theorem claim_C6 (m : CSCBinaryMatrix) (h : wfChk m = true) :
    (∀ (l : List Nat) (fin : Bool), LPInv m l →
      ∃ (l1 : List Nat) (fin1 : Bool),
        lpPass m 0 m.ncols l fin = .ok (l1, fin1) ∧ ptwLE l1 l ∧
        ((l1 = l ∧ fin1 = fin) ∨ (labelSum l1 < labelSum l ∧ fin1 = false))) ∧
    ∃ l1 : List Nat,
      lpLoop m (labelSum (List.range m.nrows) + 1) (List.range m.nrows) = .ok l1 ∧
      lpPass m 0 m.ncols l1 true = .ok (l1, true) := by
  have hwf := wfChk_iff.mp h
  constructor
  · intro l fin hinv
    obtain ⟨l1, fin1, hrun, _, hptw, hdisj, _⟩ :=
      lpPass_ok hwf m.ncols 0 l fin hinv (by omega)
    exact ⟨l1, fin1, hrun, hptw, hdisj⟩
  · obtain ⟨l1, hrun, hinv1, _, hfix⟩ :=
      lpLoop_ok hwf (labelSum (List.range m.nrows) + 1) (List.range m.nrows)
        (LPInv_init m) (le_refl _)
    exact ⟨l1, hrun, lpPass_fixed hwf hinv1.1 hfix m.ncols 0 true (by omega)⟩

/-- Witness for C6 at the sample adjacency. -/
theorem claim_C6_witness :
    ∃ l1 : List Nat,
      lpLoop exampleAdjacency (labelSum (List.range exampleAdjacency.nrows) + 1)
        (List.range exampleAdjacency.nrows) = .ok l1 ∧
      lpPass exampleAdjacency 0 exampleAdjacency.ncols l1 true = .ok (l1, true) :=
  (claim_C6 exampleAdjacency (by decide)).2

/-- Claim C8 (confirmed): on every store encoding a disjoint-set forest
(`isForest`) and every in-range node, path halving returns the root of
the node's tree (self-parented afterwards) and preserves every node's
eventual root (`RootsPres`), and `find_compress` returns the same root
without modifying the store at all. -/
theorem claim_C8 (l : List Nat) (x : Nat) (hfor : isForest l = true) (hx : x < l.length) :
    ∃ (l1 : List Nat) (r d : Nat),
      rootD l x = some (r, d) ∧
      find_root_halving (l.length + 1) l x = .ok (l1, r) ∧
      l1[r]? = some r ∧ RootsPres l l1 ∧
      find_compress (l.length + 1) l x = .ok (l, r) := by
  obtain ⟨r, d, hrd⟩ := isForest_iff.mp hfor x hx
  have hd : d < l.length + 1 := chaseRoot_depth_lt_fuel hrd
  obtain ⟨l1, hfind, hpres, _⟩ := find_root_halving_ok hrd (l.length + 1) (by omega)
  exact ⟨l1, r, d, hrd, hfind, (hpres.2.2 r).mpr (chaseRoot_isRoot hrd),
    hpres, find_compress_ok hrd (l.length + 1) (by omega)⟩

/-- Witness for C8 on the chain forest `[0, 0, 1]` at node 2. -/
theorem claim_C8_witness :
    ∃ (l1 : List Nat) (r d : Nat),
      rootD [0, 0, 1] 2 = some (r, d) ∧
      find_root_halving ([0, 0, 1].length + 1) [0, 0, 1] 2 = .ok (l1, r) ∧
      l1[r]? = some r ∧ RootsPres [0, 0, 1] l1 ∧
      find_compress ([0, 0, 1].length + 1) [0, 0, 1] 2 = .ok ([0, 0, 1], r) :=
  claim_C8 [0, 0, 1] 2 (by decide) (by decide)

/-- Claim C9 (corrected): the final compression pass is not in fact
required for the count.  Path halving preserves the set of self-parented
entries, so counting roots directly after edge processing returns the
same result as counting after the final pass, on every input — the
variant without the pass is the same function. -/
theorem claim_C9 (matrix : Option CSCBinaryMatrix) :
    cc_union_find_noFinalPass matrix = cc_union_find matrix :=
  congrFun cc_union_find_noFinalPass_eq matrix

/-- Counterexample for C9: even on a 6-node path graph — where the
spec's "long chain" scenario would apply — skipping the final pass
yields the identical result. -/
theorem claim_C9_cex :
    cc_union_find_noFinalPass (some chainAdjacency) =
      cc_union_find (some chainAdjacency) ∧
    cc_union_find_noFinalPass (some chainAdjacency) = .ok (1, 1) :=
  ⟨rfl, rfl⟩

/-- Claim C10 (confirmed): throughout the sequential union-find —
after initialization and after any prefix of the edge processing — the
store satisfies `label[i] ≤ i` (`parentLE`), hence parent chains
strictly decrease until a self-loop, every label value stays below
`nrows`, and `find_root_halving` succeeds (terminates) on every node
with the invariant intact. -/
theorem claim_C10 (m : CSCBinaryMatrix) (k x : Nat) (h : wfChk m = true)
    (hk : k ≤ (edgeList m).length) (hx : x < m.nrows) :
    parentLE (List.range m.nrows) ∧
    ∃ l : List Nat, processEdges (List.range m.nrows) ((edgeList m).take k) = .ok l ∧
      l.length = m.nrows ∧ parentLE l ∧
      (∀ i p : Nat, l[i]? = some p → p ≤ i ∧ p < m.nrows) ∧
      ∃ (l' : List Nat) (r : Nat), find_root_halving (l.length + 1) l x = .ok (l', r) ∧
        parentLE l' := by
  have hwf := wfChk_iff.mp h
  refine ⟨parentLE_range m.nrows, ?_⟩
  obtain ⟨l, hrun, hinv⟩ := processEdges_inv ((edgeList m).take k) [] (List.range m.nrows)
    (UFInv_init m.nrows) (fun e he => edgeList_bounded hwf e (List.take_subset k _ he))
  have hlen := hinv.1
  refine ⟨l, hrun, hlen, hinv.2.1, ?_, ?_⟩
  · intro i p hp
    have hle := hinv.2.1 i p hp
    have hilt : i < l.length := (List.getElem?_eq_some_iff.mp hp).1
    exact ⟨hle, by omega⟩
  · obtain ⟨r, d, hrd, _, _⟩ := parentLE_rootD hinv.2.1 x (by omega)
    have hd : d < l.length + 1 := chaseRoot_depth_lt_fuel hrd
    obtain ⟨l', hfind, _, hplef⟩ := find_root_halving_ok hrd (l.length + 1) (by omega)
    exact ⟨l', r, hfind, hplef hinv.2.1⟩

/-- Witness for C10 at the sample adjacency, prefix length 3, node 2. -/
theorem claim_C10_witness :
    parentLE (List.range exampleAdjacency.nrows) ∧
    ∃ l : List Nat,
      processEdges (List.range exampleAdjacency.nrows)
        ((edgeList exampleAdjacency).take 3) = .ok l ∧
      l.length = exampleAdjacency.nrows ∧ parentLE l ∧
      (∀ i p : Nat, l[i]? = some p → p ≤ i ∧ p < exampleAdjacency.nrows) ∧
      ∃ (l' : List Nat) (r : Nat),
        find_root_halving (l.length + 1) l 2 = .ok (l', r) ∧ parentLE l' :=
  claim_C10 exampleAdjacency 3 2 (by decide) (by decide) (by decide)
